import Mathlib

/-!
# Verification of the fftanalyzer DFT planning and execution engine

Shallow embedding of the repository's FFT core:

* `src/fft/prime_cache.rs` — the smallest-prime-factor cache (`PrimeLore`) and
  `get_factors_all`, modelled as explicit state passing over a `Lore` record.
  The Rust `HashMap<usize, usize>` is modelled as an association list with
  newest-first insertion (`List.lookup` returns the most recent binding, which
  matches `HashMap::insert` overwrite semantics); `Vec<usize>` is `List Nat`.
  Loops are modelled with explicit fuel so that every definition is executable
  by kernel reduction; each fuel argument is chosen large enough that it is
  never exhausted on the executions the theorems talk about.
* `src/fft/mod.rs` — the plan selector `find_dft` with its process-wide plan
  cache, modelled as state passing over an association-list cache of
  `PlanShape`s (the algorithm/size tree of a plan; numeric tables are handled
  in a separate layer, see below).
* `src/fft/improved.rs` and `src/fft/orig.rs` — execution (`xform_many`) of
  direct-kernel, mixed-radix, Rader and Bluestein plans over exact complex
  rationals (`Cq`).  Exact rationals model `Complex32` computations faithfully
  on inputs where every f32 operation is exact (small integers), and are the
  right carrier for stride/fram(e) properties that do not depend on rounding.
  Rust slices are modelled as total functions `Nat → Cq` together with an
  explicit base offset (`&buf[k..]` becomes the same function with base `+ k`).
* the mixed-radix twiddle table (`DFTRadix::new`, lines 32–39 of orig.rs) is
  modelled over `ℂ` with real `cos`/`sin`, in a separate non-executable layer.

Machine integers (`usize`) are modelled as `Nat`; the only place where
wrap/underflow semantics matter for a claim is `2 * n - 1` in `find_dft` at
`n = 0`, which is modelled by checked subtraction (`csub`), `none` standing for
the debug-mode overflow panic (in release mode the same call fails later, by
`%`-by-zero inside `powermod` with modulus 0, so `none` is faithful to both).
-/

namespace FFT

/-! ## Prime factorization cache (`src/fft/prime_cache.rs`) -/

/-- State of the global `PrimeLore` instance: the memoized smallest factors
(`HashMap<usize, usize>` as a newest-first association list), the ordered list
of known primes, and the largest prime marker. -/
structure Lore where
  smallest_factors : List (Nat × Nat)
  primes : List Nat
  last_prime : Nat
deriving Repr

/-- First divisor scan of `PrimeLore::find` (lines 48–56): walk the ordered
list of known primes `p`; stop (`none`) at the first `p` with `p * p > n`;
return the first `p` dividing `n`. -/
def scanPrimes : List Nat → Nat → Option Nat
  | [], _ => none
  | p :: ps, n =>
    if p * p > n then none
    else if n % p = 0 then some p
    else scanPrimes ps n

/-- Odd-candidate scan of `PrimeLore::find` (lines 61–70): starting from `p`,
step by 2 while `p * p ≤ n`, returning the first divisor found.  The fuel is
an upper bound on the number of iterations; `n + 1` always suffices. -/
def oddScan : Nat → Nat → Nat → Option Nat
  | 0, _, _ => none
  | fuel + 1, p, n =>
    if p * p ≤ n then
      if n % p = 0 then some p else oddScan fuel (p + 2) n
    else none

/-- Result of `slice::binary_search`: `found i` is `Ok(i)`, `notFound i` is
`Err(i)`. -/
inductive BRes where
  | found (i : Nat)
  | notFound (i : Nat)
deriving Repr, DecidableEq

/-- Loop of Rust `slice::binary_search` on a `Vec<usize>`: half-open interval
`[left, right)`, probing `mid = left + (right - left) / 2`.  The interval
shrinks every iteration, so fuel `l.length + 1` is never exhausted. -/
def bsearchGo (l : List Nat) (t : Nat) : Nat → Nat → Nat → BRes
  | 0, left, _ => BRes.notFound left
  | fuel + 1, left, right =>
    -- mid = left + size / 2 with size = right - left; v = self[mid]
    if left < right then
      if l.getD (left + (right - left) / 2) 0 < t then
        bsearchGo l t fuel (left + (right - left) / 2 + 1) right
      else if t < l.getD (left + (right - left) / 2) 0 then
        bsearchGo l t fuel left (left + (right - left) / 2)
      else BRes.found (left + (right - left) / 2)
    else BRes.notFound left

/-- `primes.binary_search(&n)` from `PrimeLore::find` (line 80). -/
def bsearch (l : List Nat) (t : Nat) : BRes :=
  bsearchGo l t (l.length + 1) 0 l.length

/-- `PrimeLore::find` (prime_cache.rs lines 35–91): return the cached smallest
factor if present; otherwise scan the known primes, then odd candidates from
`last_prime | 1`; if no divisor is found declare `n` prime and insert it into
the ordered prime list; finally cache the result. -/
def Lore.find (lore : Lore) (n : Nat) : Nat × Lore :=
  match lore.smallest_factors.lookup n with
  | some f => (f, lore)
  | none =>
    let sol1 :=
      match scanPrimes lore.primes n with
      | some p => p
      | none => n
    let sol :=
      if sol1 = n then
        match oddScan (n + 1) (lore.last_prime ||| 1) n with
        | some p => p
        | none => n
      else sol1
    let lore1 :=
      if sol = n then
        if lore.last_prime < n then
          { lore with primes := lore.primes ++ [n], last_prime := n }
        else
          match bsearch lore.primes n with
          | BRes.notFound pos =>
            { lore with primes := lore.primes.insertIdx pos n }
          | BRes.found _ => lore
      else lore
    (sol, { lore1 with smallest_factors := (n, sol) :: lore1.smallest_factors })

/-- The freshly seeded `PrimeLore` state, before warming:
`smallest_factors = {0→0, 1→1, 2→2}`, `primes = [2]`, `last_prime = 2`. -/
def initLore : Lore :=
  { smallest_factors := [(0, 0), (1, 1), (2, 2)], primes := [2], last_prime := 2 }

/-- One warming step of `PrimeLore::new` (lines 29–31): `find i`, keeping only
the state. -/
def warmStep (lore : Lore) (i : Nat) : Lore :=
  (lore.find i).2

/-- The state produced by `PrimeLore::new`: the seeded state warmed over
`0..1024`.  This is the initial state of the process-wide `PRIME_LORE`. -/
def warmedLore : Lore :=
  (List.range 1024).foldl warmStep initLore

/-- Loop of `get_factors_all` (prime_cache.rs lines 107–119): repeatedly take
the smallest factor and divide, until `n` equals its smallest factor.  Fuel
`n` is never exhausted when every factor returned by `find` is `n` itself or a
proper divisor `≥ 2` (which holds in every reachable state). -/
def gfaGo : Nat → Nat → Lore → List Nat → Nat → List Nat × Nat × Lore
  | 0, _, lore, acc, cnt => (acc, cnt, lore)
  | fuel + 1, n, lore, acc, cnt =>
    let r := lore.find n
    let acc1 := acc ++ [r.1]
    let cnt1 := cnt + 1
    if r.1 = n then (acc1, cnt1, r.2)
    else gfaGo fuel (n / r.1) r.2 acc1 cnt1

/-- `get_factors_all` (prime_cache.rs lines 94–121): `([], 0)` for `n ≤ 1`,
otherwise the repeated-division loop; the mutated `PrimeLore` state is
returned explicitly. -/
def get_factors_all (lore : Lore) (n : Nat) : List Nat × Nat × Lore :=
  if n ≤ 1 then ([], 0, lore)
  else gfaGo n n lore [] 0

/-! ## Plan selector and cache (`src/fft/mod.rs`)

The selector is modelled on the level of *plan shapes*: the algorithm tree a
plan is built from (algorithm identity, sizes, generator data, sub-plans).
The numeric tables (twiddles, ω, chirps) influence neither control flow nor
cache/factor state, and are modelled separately (`DFTRadix_wtable` over `ℂ`,
and the `PlanX` execution layer over `Cq`). -/

/-- Shape of a constructed plan: `DFTImproved<Kernel_N, N>`, `DFTRadix`,
`DFTRader` or `DFTBluestein`, with the data that determines control flow. -/
inductive PlanShape where
  | direct (n : Nat)
  | radix (n p q : Nat) (dft_p dft_q : Option PlanShape)
  | rader (n g g_inv : Nat) (dft_n1 : PlanShape)
  | bluestein (n nb : Nat) (dft_nb : PlanShape)

/-- The process-wide `PLAN_CACHE` (`HashMap<usize, Arc<dyn DFTBase>>`),
modelled as a newest-first association list. -/
abbrev PlanCache := List (Nat × PlanShape)

/-- Checked subtraction: models debug-mode `usize` subtraction, where
underflow panics (`none`). -/
def csub (a b : Nat) : Option Nat :=
  if b ≤ a then some (a - b) else none

/-- Doubling loop computing `usize::next_power_of_two`: the smallest power of
two `≥ m` (and `1` for `m = 0`, as in Rust).  Fuel `m` suffices since the
accumulator doubles each step. -/
def np2Go (m : Nat) : Nat → Nat → Nat
  | 0, acc => acc
  | fuel + 1, acc => if m ≤ acc then acc else np2Go m fuel (2 * acc)

/-- `usize::next_power_of_two` as used by `find_dft` (mod.rs line 86). -/
def np2 (m : Nat) : Nat :=
  np2Go m m 1

/-- Loop of `powermod` (orig.rs lines 213–224): square-and-multiply state
`(exp, result, base)`.  The exponent at least halves each step, so fuel
`exp + 1` is never exhausted. -/
def powermodGo (modulus : Nat) : Nat → Nat → Nat → Nat → Nat
  | 0, _, result, _ => result
  | fuel + 1, exp, result, base =>
    if 0 < exp then
      let result1 := if exp % 2 = 1 then (result * base) % modulus else result
      powermodGo modulus fuel (exp / 2) result1 ((base * base) % modulus)
    else result

/-- `powermod(base, exp, modulus)` (orig.rs lines 213–224). -/
def powermod (base exp modulus : Nat) : Nat :=
  powermodGo modulus (exp + 1) exp 1 (base % modulus)

/-- Generator search loop of `DFTRader::new` (orig.rs lines 162–176): find the
smallest `g ≥ 2` such that `g^((n−1)/f) mod n ≠ 1` for every prime factor `f`
of `n − 1` (the source indexes `factors[i]` for `i < count`; `count` always
equals the length of the factor list).  The Rust loop is unbounded, hence the
fuel; the branch calling it is unreachable from `find_dft` (it requires a size
`n ≥ 2` with zero prime factors). -/
def raderSearchGo (n : Nat) (factors : List Nat) : Nat → Nat → Option Nat
  | 0, _ => none
  | fuel + 1, g =>
    if factors.all fun f => powermod g ((n - 1) / f) n != 1 then some g
    else raderSearchGo n factors fuel (g + 1)

/-- `DFTRadix::new(n)` (orig.rs lines 24–55): choose `p` from the factor
list, `q = n / p`, build the twiddle table (numeric, see `DFTRadix_wtable`),
then request sub-plans for `p` and `q` when they exceed 1. -/
def DFTRadix_new (recur : Nat → PlanCache → Lore → Option (PlanShape × PlanCache × Lore))
    (n : Nat) (cache : PlanCache) (lore : Lore) :
    Option (PlanShape × PlanCache × Lore) :=
  let r1 := get_factors_all lore n
  let p := if 0 < r1.2.1 then r1.1.getD 0 0 else n
  let q := n / p
  if 1 < p then
    match recur p cache r1.2.2 with
    | none => none
    | some (sp, c2, l2) =>
      if 1 < q then
        match recur q c2 l2 with
        | none => none
        | some (sq, c3, l3) =>
          some (PlanShape.radix n p q (some sp) (some sq), c3, l3)
      else some (PlanShape.radix n p q (some sp) none, c2, l2)
  else
    if 1 < q then
      match recur q cache r1.2.2 with
      | none => none
      | some (sq, c2, l2) =>
        some (PlanShape.radix n p q none (some sq), c2, l2)
    else some (PlanShape.radix n p q none none, cache, r1.2.2)

/-- `DFTRader::new(n)` (orig.rs lines 156–210): factor `n − 1`, search the
generator, compute its inverse, and request the size-`(n−1)` sub-plan (used
to transform the numeric ω table, which lives in the execution layer). -/
def DFTRader_new (recur : Nat → PlanCache → Lore → Option (PlanShape × PlanCache × Lore))
    (n : Nat) (cache : PlanCache) (lore : Lore) :
    Option (PlanShape × PlanCache × Lore) :=
  let r2 := get_factors_all lore (n - 1)
  match raderSearchGo n r2.1 (n + 2) 2 with
  | none => none
  | some g =>
    let ginv := powermod g (n - 2) n
    match recur (n - 1) cache r2.2.2 with
    | none => none
    | some (s1, c2, l2) =>
      some (PlanShape.rader n g ginv s1, c2, l2)

/-- `DFTBluestein::new(n, nb)` (orig.rs lines 344–377): the chirp tables are
numeric only (execution layer); construction requests the size-`nb`
sub-plan. -/
def DFTBluestein_new (recur : Nat → PlanCache → Lore → Option (PlanShape × PlanCache × Lore))
    (n nb : Nat) (cache : PlanCache) (lore : Lore) :
    Option (PlanShape × PlanCache × Lore) :=
  match recur nb cache lore with
  | none => none
  | some (snb, c2, l2) =>
    some (PlanShape.bluestein n nb snb, c2, l2)

/-- Strategy selection of `find_dft` (mod.rs lines 72–94) plus the
construction each branch performs, with `recur` standing for the recursive
`find_dft` the constructors call back into. -/
def find_dft_build (recur : Nat → PlanCache → Lore → Option (PlanShape × PlanCache × Lore))
    (n : Nat) (cache : PlanCache) (lore : Lore) :
    Option (PlanShape × PlanCache × Lore) :=
  if n = 1 then some (PlanShape.direct 1, cache, lore)
  else if n = 2 then some (PlanShape.direct 2, cache, lore)
  else if n = 3 then some (PlanShape.direct 3, cache, lore)
  else if n = 4 then some (PlanShape.direct 4, cache, lore)
  else if n = 5 then some (PlanShape.direct 5, cache, lore)
  else if n = 6 then some (PlanShape.direct 6, cache, lore)
  else if n = 8 then some (PlanShape.direct 8, cache, lore)
  else
    -- `let (_factors, count) = get_factors_all(n)` (mod.rs line 81); the call
    -- is written out at each use below (it is a pure function of its inputs)
    if 2 ≤ (get_factors_all lore n).2.1 then
      DFTRadix_new recur n cache (get_factors_all lore n).2.2
    else
      match csub (2 * n) 1 with
      | none => none
      | some m =>
        if (get_factors_all lore n).2.1 = 0 then
          DFTRader_new recur n cache (get_factors_all lore n).2.2
        else DFTBluestein_new recur n (np2 m) cache (get_factors_all lore n).2.2

/-- `find_dft` (mod.rs lines 52–101): cached-plan lookup, then construction,
then insertion of the new plan.  One unit of fuel is consumed per nesting
level of the recursion; the termination theorem shows `mu n + 1` always
suffices. -/
def find_dft_fuel : Nat → Nat → PlanCache → Lore → Option (PlanShape × PlanCache × Lore)
  | 0, _, _, _ => none
  | fuel + 1, n, cache, lore =>
    match cache.lookup n with
    | some plan => some (plan, cache, lore)
    | none =>
      (find_dft_build (find_dft_fuel fuel) n cache lore).map fun r =>
        (r.1, (n, r.1) :: r.2.1, r.2.2)

/-! ## Execution layer (`src/fft/improved.rs`, `src/fft/orig.rs`)

`Complex32` is modelled by exact complex rationals `Cq`; slices by total
functions `Nat → Cq` plus an explicit base offset (`&buf[k..]` is the same
function with base `+ k`; disjoint input/output borrows are automatic because
buffers are passed functionally: reads go to the pre-call function).  A SIMD
`BatchComplex<L>` is a family of `L` scalar lanes; all its operations act
lane-wise, so a kernel is modelled by its scalar per-lane function, applied
to each lane. -/

/-- Exact model of a `Complex32` value. -/
structure Cq where
  re : ℚ
  im : ℚ
deriving DecidableEq, Repr

/-- Complex addition (`BatchComplex::add`, lane-wise). -/
def Cq.add (x y : Cq) : Cq := ⟨x.re + y.re, x.im + y.im⟩

/-- Complex subtraction (`BatchComplex::sub`, lane-wise). -/
def Cq.sub (x y : Cq) : Cq := ⟨x.re - y.re, x.im - y.im⟩

/-- Complex multiplication (`BatchComplex::mul`, lane-wise:
`re*re' − im*im'`, `re*im' + im*re'`). -/
def Cq.mul (x y : Cq) : Cq := ⟨x.re * y.re - x.im * y.im, x.re * y.im + x.im * y.re⟩

/-- Complex conjugation (`Complex32::conj`). -/
def Cq.conj (x : Cq) : Cq := ⟨x.re, -x.im⟩

/-- The zero value (`Complex32::default`). -/
def Cq.zero : Cq := ⟨0, 0⟩

/-- The imaginary unit, `i_c()` of improved.rs. -/
def iC : Cq := ⟨0, 1⟩

/-- A caller-owned buffer of complex scalars. -/
abbrev Buf := Nat → Cq

/-- Size-2 DFT kernel (`Kernel2::transform`, improved.rs lines 164–174), as
the scalar function applied to every lane. -/
def kernel2 (x : Nat → Cq) : Nat → Cq := fun i =>
  if i = 0 then (x 0).add (x 1)
  else if i = 1 then (x 0).sub (x 1)
  else Cq.zero

/-- Size-4 DFT kernel (`Kernel4::transform`, improved.rs lines 194–210). -/
def kernel4 (x : Nat → Cq) : Nat → Cq := fun i =>
  let t0 := (x 0).add (x 2)
  let t1 := (x 3).add (x 1)
  let u0 := (x 0).sub (x 2)
  let u1 := ((x 3).sub (x 1)).mul iC
  if i = 0 then t0.add t1
  else if i = 1 then u0.add u1
  else if i = 2 then t0.sub t1
  else if i = 3 then u0.sub u1
  else Cq.zero

/-- `DFTImproved::dosimd3` (improved.rs lines 333–373): gather `L` strided
lanes for each of the `N` positions, apply the kernel lane-wise, scatter the
results.  The gather guard mirrors the `N`-element/`L`-lane extent of the
stack arrays `x`/`X` (initialized to zero). -/
def dosimd3 (N L : Nat) (kern : (Nat → Cq) → Nat → Cq) (input : Buf)
    (iBase istep istep2 : Nat) (output : Buf) (oBase ostep ostep2 : Nat) : Buf :=
  let x : Nat → Nat → Cq := fun a b =>
    if a < N ∧ b < L then input (iBase + a * istep + b * istep2) else Cq.zero
  let X : Nat → Nat → Cq := fun a b => kern (fun a2 => x a2 b) a
  (List.range N).foldl
    (fun out a =>
      (List.range L).foldl
        (fun out b => Function.update out (oBase + a * ostep + b * ostep2) (X a b)) out)
    output

/-- Batch loop of `DFTImproved::dosimd2` (improved.rs lines 391–412): process
batches of width 8 while they fit, then width 4, then width 1, advancing the
slice bases by `W·istep2` / `W·ostep2`.  The three `while` loops of the
source are merged into one fueled loop that re-checks the widths in the same
priority order; since `n` only grows, this performs exactly the same batch
sequence.  Fuel `num + 1` is never exhausted (each iteration increases `n`).
-/
def dosimd2Go (N : Nat) (kern : (Nat → Cq) → Nat → Cq) (input : Buf)
    (istep istep2 ostep ostep2 num : Nat) :
    Nat → Nat → Nat → Nat → Buf → Buf
  | 0, _, _, _, output => output
  | fuel + 1, n, iBase, oBase, output =>
    if n + 8 ≤ num then
      dosimd2Go N kern input istep istep2 ostep ostep2 num fuel (n + 8)
        (iBase + 8 * istep2) (oBase + 8 * ostep2)
        (dosimd3 N 8 kern input iBase istep istep2 output oBase ostep ostep2)
    else if n + 4 ≤ num then
      dosimd2Go N kern input istep istep2 ostep ostep2 num fuel (n + 4)
        (iBase + 4 * istep2) (oBase + 4 * ostep2)
        (dosimd3 N 4 kern input iBase istep istep2 output oBase ostep ostep2)
    else if n < num then
      dosimd2Go N kern input istep istep2 ostep ostep2 num fuel (n + 1)
        (iBase + 1 * istep2) (oBase + 1 * ostep2)
        (dosimd3 N 1 kern input iBase istep istep2 output oBase ostep ostep2)
    else output

/-- `DFTImproved::dosimd2` (improved.rs lines 376–413): when `num == 1` the
batch strides are forced to zero, then the batch loop runs. -/
def dosimd2 (N : Nat) (kern : (Nat → Cq) → Nat → Cq) (input : Buf)
    (iBase istep istep2 : Nat) (output : Buf) (oBase ostep ostep2 num : Nat) : Buf :=
  let istep2e := if num = 1 then 0 else istep2
  let ostep2e := if num = 1 then 0 else ostep2
  dosimd2Go N kern input istep istep2e ostep ostep2e num (num + 1) 0 iBase oBase output

/-- Execution-level plan: a `PlanShape` together with its numeric tables.
Direct plans carry their scalar kernel function; `radix` carries the twiddle
table, `rader` its ω table, `bluestein` its `w0`/`w1` tables.  Every plan
the selector produces is one of these. -/
inductive PlanX where
  | direct (N : Nat) (kern : (Nat → Cq) → Nat → Cq)
  | radix (n p q : Nat) (wtable : List Cq) (dft_p dft_q : Option PlanX)
  | rader (n g g_inv : Nat) (omega : List Cq) (dft_n1 : PlanX)
  | bluestein (n nb : Nat) (w0 w1 : List Cq) (dft_nb : PlanX)

/-- Rader input permutation (orig.rs lines 257–267): DC terms to `buf[i]`,
then the `g`-power permutation of the non-DC inputs, tracking `gp`. -/
def raderPerm (input : Buf) (iBase istep istep2 g n n1 count : Nat) (buf0 : Buf) : Buf :=
  (List.range count).foldl
    (fun buf i =>
      let buf1 := Function.update buf i (input (iBase + i * istep2))
      ((List.range n1).foldl
        (fun (s : Buf × Nat) k =>
          (Function.update s.1 (count + k + i * n1)
            (input (iBase + i * istep2 + s.2 * istep)), s.2 * g % n))
        (buf1, 1)).1)
    buf0

/-- `xform_many` of every plan type, with explicit fuel for the recursion
through sub-plans (structurally the recursion follows the plan tree; the fuel
only serves to keep the definition executable, and plan depth `+ 1` always
suffices).  Arguments: plan, input buffer and base, output buffer and base,
`istep istep2 ostep ostep2 count`.  Returns the updated output buffer.

* `direct`: `DFTImproved::xform_many` (improved.rs 429–440) = `dosimd2`.
* `radix`: `DFTRadix::xform_many` (orig.rs 69–142).
* `rader`: `DFTRader::xform_many` (orig.rs 237–329).
* `bluestein`: `DFTBluestein::xform_many` (orig.rs 391–447). -/
def xm : Nat → PlanX → Buf → Nat → Buf → Nat → Nat → Nat → Nat → Nat → Nat → Buf
  | 0, _, _, _, output, _, _, _, _, _, _ => output
  | fuel + 1, plan, input, iBase, output, oBase, istep, istep2, ostep, ostep2, count =>
    match plan with
    | PlanX.direct N kern =>
      dosimd2 N kern input iBase istep istep2 output oBase ostep ostep2 count
    | PlanX.radix n p q wt dp dq =>
      -- p transforms of length q (orig.rs 82–97)
      let out1 :=
        match dq with
        | some dqp =>
          (List.range count).foldl
            (fun (out : Buf) i =>
              xm fuel dqp input (iBase + i * istep2) out (oBase + i * ostep2)
                (p * istep) istep ostep (ostep * q) p)
            output
        | none => output
      -- twiddle stage over b ∈ [1,p), a ∈ [1,q) (orig.rs 102–110)
      let out2 : Buf :=
        (List.range count).foldl
          (fun (out : Buf) i =>
            (List.range' 1 (p - 1)).foldl
              (fun (out : Buf) b =>
                (List.range' 1 (q - 1)).foldl
                  (fun (out : Buf) a =>
                    let idx := ostep * (b * q + a)
                    Function.update out (oBase + i * ostep2 + idx)
                      ((out (oBase + i * ostep2 + idx)).mul (wt.getD (b * q + a) Cq.zero)))
                  out)
              out)
          out1
      -- q transforms of length p through a scratch copy (orig.rs 115–141)
      match dp with
      | some dpp =>
        (List.range count).foldl
          (fun (out : Buf) i =>
            let tc : Buf := fun k =>
              if k < n then out (oBase + i * ostep2 + k * ostep) else Cq.zero
            let tc2 := xm fuel dpp tc 0 tc 0 q 1 q 1 q
            (List.range n).foldl
              (fun (out : Buf) k =>
                Function.update out (oBase + i * ostep2 + k * ostep) (tc2 k))
              out)
          out2
      | none => out2
    | PlanX.rader n g ginv om sub =>
      let n1 := n - 1
      -- working buffer of size count + n1*count*2, zero-initialized
      let buf1 := raderPerm input iBase istep istep2 g n n1 count (fun _ => Cq.zero)
      -- forward DFT of the permuted blocks (orig.rs 272–283)
      let buf2 := xm fuel sub buf1 count buf1 (count + n1 * count) 1 n1 1 n1 count
      -- kernel multiply, DC correction, conjugation (orig.rs 288–300)
      let pr :=
        (List.range count).foldl
          (fun (pr : Buf × Buf) i =>
            let dc := (pr.1 i).add (pr.1 (count + n1 * (i + count)))
            let out1 := Function.update pr.2 (oBase + i * ostep2) dc
            let bufN :=
              (List.range n1).foldl
                (fun (buf : Buf) k =>
                  let idxSrc := count + k + n1 * (i + count)
                  let corr := if k = 0 then buf i else Cq.zero
                  Function.update buf idxSrc
                    (((buf idxSrc).mul (om.getD k Cq.zero)).add corr).conj)
                pr.1
            (bufN, out1))
          (buf2, output)
      -- second forward DFT (orig.rs 305–315)
      let buf3 := xm fuel sub pr.1 (count + n1 * count) pr.1 count 1 n1 1 n1 count
      -- conjugate, inverse permutation, write-back (orig.rs 320–328)
      (List.range count).foldl
        (fun (out : Buf) i =>
          ((List.range n1).foldl
            (fun (s : Buf × Nat) k =>
              (Function.update s.1 (oBase + i * ostep2 + s.2 * ostep)
                (buf3 (count + k + i * n1)).conj, s.2 * ginv % n))
            (out, 1)).1)
        pr.2
    | PlanX.bluestein n nb w0 w1 sub =>
      -- scratch of size nb*count*2, zero-initialized; slice1 at 0, slice2 at nb*count
      -- chirp modulation (orig.rs 410–414)
      let buf1 : Buf :=
        (List.range count).foldl
          (fun (buf : Buf) i =>
            (List.range n).foldl
              (fun (buf : Buf) k =>
                Function.update buf (k + i * nb)
                  ((input (iBase + k * istep + i * istep2)).mul (w0.getD k Cq.zero)))
              buf)
          (fun _ => Cq.zero)
      -- forward DFT slice1 → slice2 (orig.rs 419–420)
      let buf2 := xm fuel sub buf1 0 buf1 (nb * count) 1 nb 1 nb count
      -- frequency-domain kernel multiply (orig.rs 425–430)
      let buf3 : Buf :=
        (List.range count).foldl
          (fun (buf : Buf) i =>
            (List.range nb).foldl
              (fun (buf : Buf) j =>
                let idx := nb * count + (j + i * nb)
                Function.update buf idx ((buf idx).conj.mul (w1.getD j Cq.zero)))
              buf)
          buf2
      -- inverse DFT slice2 → slice1 (orig.rs 435–436)
      let buf4 := xm fuel sub buf3 (nb * count) buf3 0 1 nb 1 nb count
      -- final modulation and write-back (orig.rs 441–446)
      (List.range count).foldl
        (fun (out : Buf) i =>
          (List.range n).foldl
            (fun (out : Buf) k =>
              Function.update out (oBase + k * ostep + i * ostep2)
                ((buf4 (k + i * nb)).conj.mul (w0.getD k Cq.zero)))
            out)
        output

/-- `DFTBase::xform` (mod.rs lines 16–18): single contiguous transform,
`xform_many(input, output, 1, 0, 1, 0, 1)`. -/
def xform (fuel : Nat) (plan : PlanX) (input output : Buf) : Buf :=
  xm fuel plan input 0 output 0 1 0 1 0 1

/-- Buffer holding the elements of a list, zero beyond its length. -/
def listBuf (l : List Cq) : Buf := fun i => l.getD i Cq.zero

/-! ## Mixed-radix twiddle table (`DFTRadix::new`, orig.rs lines 24–56)

The twiddle construction is the one numeric computation a claim quantifies
over, so it is modelled over `ℂ` with exact reals (`Complex32::from_polar`
becomes `cos`/`sin` of the exact angle). -/

/-- `w(k, n)` (orig.rs lines 6–9): `Complex32::from_polar(1.0, −2π·k/n)`,
that is `1·cos θ + (1·sin θ)i` at `θ = −2π·k/n`. -/
noncomputable def wC (k n : Nat) : ℂ :=
  ⟨1 * Real.cos (-2 * Real.pi * k / n), 1 * Real.sin (-2 * Real.pi * k / n)⟩

/-- The twiddle table built by `DFTRadix::new` (orig.rs lines 32–39): for
`a ∈ 0..n`, push `w((a % q) * (a / q), n)`, where `q = n / p` is the chosen
cofactor.  The table is a plain immutable value: `DFTRadix` never writes to
`wtable` after construction (`xform_many` only reads it, line 107). -/
noncomputable def DFTRadix_wtable (n q : Nat) : List ℂ :=
  (List.range n).map fun a => wC ((a % q) * (a / q)) n

/-! ## C10: `xform_many` with `count = 0` writes nothing -/

/-- C10.  For every plan and all bases and strides, `xform_many` with
`count == 0` returns the output buffer unchanged at every position; since the
result is the unmodified `output` whatever `input` is, the input buffer is
not read either.  (All per-transform loops range over `0..count`; the
Rader/Bluestein scratch-buffer sub-transforms also receive `count = 0` and
touch only internal scratch.) -/
theorem xform_many_count_zero (fuel : Nat) (plan : PlanX) (input : Buf)
    (iBase : Nat) (output : Buf) (oBase istep istep2 ostep ostep2 : Nat) :
    xm fuel plan input iBase output oBase istep istep2 ostep ostep2 0 = output := by
  cases fuel with
  | zero => rfl
  | succ fuel =>
    cases plan with
    | direct N kern =>
      simp [xm, dosimd2, dosimd2Go]
    | radix n p q wt dp dq =>
      cases dp <;> cases dq <;> simp [xm]
    | rader n g ginv om sub =>
      simp [xm]
    | bluestein n nb w0 w1 sub =>
      simp [xm]

/-! ## C9: with `count = 1`, the batch strides are irrelevant -/

/-- C9.  For every direct-kernel plan (any size `N` and kernel), a single
transform (`count == 1`) is independent of `istep2` and `ostep2`:
`dosimd2` forces both batch strides to zero before any batch is processed,
so the two runs perform identical reads and writes. -/
theorem xform_many_single_ignores_batch_strides (fuel N : Nat)
    (kern : (Nat → Cq) → Nat → Cq) (input : Buf) (iBase : Nat) (output : Buf)
    (oBase istep istep2 istep2' ostep ostep2 ostep2' : Nat) :
    xm fuel (PlanX.direct N kern) input iBase output oBase istep istep2 ostep ostep2 1 =
      xm fuel (PlanX.direct N kern) input iBase output oBase istep istep2' ostep ostep2' 1 := by
  cases fuel with
  | zero => rfl
  | succ fuel => rfl

/-! ## C3: size 0 is rejected at plan construction -/

/-- C3.  `find_dft(0)` fails during construction instead of building and
returning a plan: the selector reaches `(2 * n - 1).next_power_of_two()`
with `n = 0`, whose subtraction underflows (debug panic; in release mode the
subsequent `powermod(_, _, 0)` divides by zero), modelled as `none`.  The
hypothesis says only that no plan for size 0 is already cached, which holds
in every reachable cache state since a size-0 plan can never be built. -/
theorem find_dft_zero_fails (fuel : Nat) (cache : PlanCache) (lore : Lore)
    (h : cache.lookup 0 = none) :
    find_dft_fuel fuel 0 cache lore = none := by
  cases fuel with
  | zero => rfl
  | succ fuel =>
    simp only [find_dft_fuel, find_dft_build, h, get_factors_all, csub]
    norm_num

/-- C3 witness: from the empty cache and the seeded factor state,
`find_dft(0)` fails. -/
theorem find_dft_zero_fails_witness :
    find_dft_fuel 5 0 [] initLore = none :=
  find_dft_zero_fails 5 [] initLore rfl

/-! ## C7: concrete end-to-end scenarios -/

/-- C7.  The two concrete scenarios hold exactly (so in particular up to any
tolerance ε): `find_dft(2).xform` maps `[1, 1]` to `[2, 0]` through
`Kernel2`, and `find_dft(4).xform` maps `[1, 1, 1, 1]` to `[4, 0, 0, 0]`
through `Kernel4`.  Every `f32` operation performed on these inputs is exact
(sums and differences of small integers), so the exact-rational run equals
the single-precision run. -/
theorem xform_concrete_scenarios (out2 out4 : Buf) :
    (xform 1 (PlanX.direct 2 kernel2) (listBuf [⟨1, 0⟩, ⟨1, 0⟩]) out2 0 = ⟨2, 0⟩ ∧
      xform 1 (PlanX.direct 2 kernel2) (listBuf [⟨1, 0⟩, ⟨1, 0⟩]) out2 1 = ⟨0, 0⟩) ∧
    (xform 1 (PlanX.direct 4 kernel4) (listBuf [⟨1, 0⟩, ⟨1, 0⟩, ⟨1, 0⟩, ⟨1, 0⟩]) out4 0 = ⟨4, 0⟩ ∧
      xform 1 (PlanX.direct 4 kernel4) (listBuf [⟨1, 0⟩, ⟨1, 0⟩, ⟨1, 0⟩, ⟨1, 0⟩]) out4 1 = ⟨0, 0⟩ ∧
      xform 1 (PlanX.direct 4 kernel4) (listBuf [⟨1, 0⟩, ⟨1, 0⟩, ⟨1, 0⟩, ⟨1, 0⟩]) out4 2 = ⟨0, 0⟩ ∧
      xform 1 (PlanX.direct 4 kernel4) (listBuf [⟨1, 0⟩, ⟨1, 0⟩, ⟨1, 0⟩, ⟨1, 0⟩]) out4 3 = ⟨0, 0⟩) := by
  refine ⟨⟨?_, ?_⟩, ?_, ?_, ?_, ?_⟩ <;>
    simp [xform, xm, dosimd2, dosimd2Go, dosimd3, listBuf, kernel2, kernel4,
      Function.update, Cq.add, Cq.sub, Cq.mul, iC, Cq.zero, List.range_succ] <;>
    norm_num

/-! ## C8: the mixed-radix twiddle table -/

/-- `from_polar(1, −2πk/n)` is the complex exponential `exp(−2πik/n)`. -/
theorem wC_eq_exp (k n : Nat) :
    wC k n = Complex.exp (-2 * Real.pi * Complex.I * k / n) := by
  have h : (-2 * Real.pi * Complex.I * k / n : ℂ) =
      ((-2 * Real.pi * k / n : ℝ) : ℂ) * Complex.I := by
    push_cast
    ring
  rw [h, Complex.exp_mul_I, ← Complex.ofReal_cos, ← Complex.ofReal_sin]
  rw [wC, ← Complex.mk_eq_add_mul_I]
  norm_num

/-- C8.  For a mixed-radix plan of size `n` with chosen split `n = p·q`, the
twiddle table built at construction has length exactly `n`, and its entry at
each index `a < n` is `exp(−2πi·(a mod q)·(a div q)/n)` (exactly, in the
real-valued model of the single-precision computation).  The table is never
written after construction: `DFTRadix_wtable` is an immutable value and
`DFTRadix::xform_many` only reads it. -/
theorem radix_twiddle_table (n q a : Nat) (ha : a < n) :
    (DFTRadix_wtable n q).length = n ∧
    (DFTRadix_wtable n q).getD a 0 =
      Complex.exp (-2 * Real.pi * Complex.I * ((a % q : Nat) : ℂ) *
        ((a / q : Nat) : ℂ) / (n : ℂ)) := by
  refine ⟨by simp [DFTRadix_wtable], ?_⟩
  have hlen : a < (DFTRadix_wtable n q).length := by
    simpa [DFTRadix_wtable] using ha
  rw [List.getD_eq_getElem _ _ hlen]
  simp only [DFTRadix_wtable, List.getElem_map, List.getElem_range, wC_eq_exp]
  congr 1
  push_cast
  ring

/-- C8 witness: the size-4 table with split `4 = 2·2`, at index `a = 3`. -/
theorem radix_twiddle_table_witness :
    (DFTRadix_wtable 4 2).length = 4 ∧
    (DFTRadix_wtable 4 2).getD 3 0 =
      Complex.exp (-2 * Real.pi * Complex.I * ((3 % 2 : Nat) : ℂ) *
        ((3 / 2 : Nat) : ℂ) / (4 : ℂ)) :=
  radix_twiddle_table 4 2 3 (by decide)

/-! ## C5: plan-cache identity and monotonicity -/

/-- Association-list lookup finds the newest binding of a key. -/
theorem lookup_cons_self {β : Type} {c : List (Nat × β)} {n : Nat} {p : β} :
    List.lookup n ((n, p) :: c) = some p := by
  simp [List.lookup]

/-- Association-list lookup ignores bindings of other keys. -/
theorem lookup_cons_ne {β : Type} {c : List (Nat × β)} {m n : Nat} {p : β}
    (h : m ≠ n) : List.lookup m ((n, p) :: c) = List.lookup m c := by
  have hb : (m == n) = false := by simpa using h
  simp [List.lookup, hb]

/-- After a successful `find_dft` call, the returned cache maps the requested
size to the returned plan (either it already did, or the final
`cache.insert(n, plan)` of mod.rs lines 98–99 just ran). -/
theorem find_dft_caches_self (fuel n : Nat) (c : PlanCache) (l : Lore)
    (p : PlanShape) (c2 : PlanCache) (l2 : Lore)
    (h : find_dft_fuel fuel n c l = some (p, c2, l2)) :
    c2.lookup n = some p := by
  cases fuel with
  | zero => exact Option.noConfusion h
  | succ fuel =>
    rw [find_dft_fuel] at h
    cases hl : c.lookup n with
    | some q =>
      rw [hl] at h
      simp only [Option.some.injEq, Prod.mk.injEq] at h
      obtain ⟨h1, h2, _⟩ := h
      rw [← h2, ← h1]
      exact hl
    | none =>
      rw [hl] at h
      rw [Option.map_eq_some'] at h
      obtain ⟨r, _, he⟩ := h
      simp only [Prod.mk.injEq] at he
      obtain ⟨h1, h2, _⟩ := he
      rw [← h2, ← h1]
      exact lookup_cons_self

/-- `DFTRadix::new` only adds cache entries, given that its recursive calls
do. -/
theorem DFTRadix_new_mono
    (recur : Nat → PlanCache → Lore → Option (PlanShape × PlanCache × Lore))
    (hrec : ∀ k c l s c2 l2, recur k c l = some (s, c2, l2) →
      ∀ m pm, c.lookup m = some pm → c2.lookup m = some pm)
    (n : Nat) (c : PlanCache) (l : Lore) (r : PlanShape × PlanCache × Lore)
    (h : DFTRadix_new recur n c l = some r) :
    ∀ m pm, c.lookup m = some pm → r.2.1.lookup m = some pm := by
  intro m pm hm
  rw [DFTRadix_new] at h
  repeat' split at h
  all_goals first
    | exact Option.noConfusion h
    | (obtain rfl := Option.some.inj h; solve_by_elim [hrec])

/-- `DFTRader::new` only adds cache entries, given that its recursive call
does. -/
theorem DFTRader_new_mono
    (recur : Nat → PlanCache → Lore → Option (PlanShape × PlanCache × Lore))
    (hrec : ∀ k c l s c2 l2, recur k c l = some (s, c2, l2) →
      ∀ m pm, c.lookup m = some pm → c2.lookup m = some pm)
    (n : Nat) (c : PlanCache) (l : Lore) (r : PlanShape × PlanCache × Lore)
    (h : DFTRader_new recur n c l = some r) :
    ∀ m pm, c.lookup m = some pm → r.2.1.lookup m = some pm := by
  intro m pm hm
  rw [DFTRader_new] at h
  repeat' split at h
  all_goals first
    | exact Option.noConfusion h
    | (obtain rfl := Option.some.inj h; solve_by_elim [hrec])

/-- `DFTBluestein::new` only adds cache entries, given that its recursive
call does. -/
theorem DFTBluestein_new_mono
    (recur : Nat → PlanCache → Lore → Option (PlanShape × PlanCache × Lore))
    (hrec : ∀ k c l s c2 l2, recur k c l = some (s, c2, l2) →
      ∀ m pm, c.lookup m = some pm → c2.lookup m = some pm)
    (n nb : Nat) (c : PlanCache) (l : Lore) (r : PlanShape × PlanCache × Lore)
    (h : DFTBluestein_new recur n nb c l = some r) :
    ∀ m pm, c.lookup m = some pm → r.2.1.lookup m = some pm := by
  intro m pm hm
  rw [DFTBluestein_new] at h
  repeat' split at h
  all_goals first
    | exact Option.noConfusion h
    | (obtain rfl := Option.some.inj h; solve_by_elim [hrec])

/-- Construction (`find_dft_build`) only adds cache entries, provided the
recursive calls it makes do the same. -/
theorem find_dft_build_mono
    (recur : Nat → PlanCache → Lore → Option (PlanShape × PlanCache × Lore))
    (hrec : ∀ k c l s c2 l2, recur k c l = some (s, c2, l2) →
      ∀ m pm, c.lookup m = some pm → c2.lookup m = some pm)
    (n : Nat) (c : PlanCache) (l : Lore) (r : PlanShape × PlanCache × Lore)
    (h : find_dft_build recur n c l = some r) :
    ∀ m pm, c.lookup m = some pm → r.2.1.lookup m = some pm := by
  intro m pm hm
  rw [find_dft_build] at h
  repeat' split at h
  all_goals first
    | exact Option.noConfusion h
    | (obtain rfl := Option.some.inj h; exact hm)
    | exact DFTRadix_new_mono recur hrec _ _ _ _ h m pm hm
    | exact DFTRader_new_mono recur hrec _ _ _ _ h m pm hm
    | exact DFTBluestein_new_mono recur hrec _ _ _ _ _ h m pm hm

/-- Monotonicity of the plan cache: a successful `find_dft` call preserves
every binding that was present when it began. -/
theorem find_dft_mono : ∀ (fuel n : Nat) (c : PlanCache) (l : Lore)
    (p : PlanShape) (c2 : PlanCache) (l2 : Lore),
    find_dft_fuel fuel n c l = some (p, c2, l2) →
    ∀ (m : Nat) (pm : PlanShape), c.lookup m = some pm → c2.lookup m = some pm := by
  intro fuel
  induction fuel with
  | zero => intro n c l p c2 l2 h; exact Option.noConfusion h
  | succ fuel ih =>
    intro n c l p c2 l2 h m pm hm
    rw [find_dft_fuel] at h
    cases hl : c.lookup n with
    | some q =>
      rw [hl] at h
      simp only [Option.some.injEq, Prod.mk.injEq] at h
      obtain ⟨-, h2, -⟩ := h
      rw [← h2]
      exact hm
    | none =>
      rw [hl] at h
      have hmn : m ≠ n := by
        intro he
        rw [he, hl] at hm
        exact Option.noConfusion hm
      rw [Option.map_eq_some'] at h
      obtain ⟨r, hr, he⟩ := h
      simp only [Prod.mk.injEq] at he
      obtain ⟨-, h2, -⟩ := he
      rw [← h2, lookup_cons_ne hmn]
      exact find_dft_build_mono (find_dft_fuel fuel)
        (fun k ck lk s cc ll hk mk pmk hmk => ih k ck lk s cc ll hk mk pmk hmk)
        n c l r hr m pm hm

/-- C5.  Plan identity and cache monotonicity: after a first successful
`find_dft(n)` call (any fuel), every later `find_dft(n)` call returns the
very plan object the first call returned, leaving cache and factor state
untouched (the Arc identity of the Rust original corresponds to returning
the stored value unchanged); and the call never mutates or evicts an entry
that was present before it: all prior bindings survive verbatim. -/
theorem find_dft_plan_identity (fuel fuel2 n : Nat) (c : PlanCache) (l : Lore)
    (p : PlanShape) (c2 : PlanCache) (l2 : Lore)
    (h : find_dft_fuel fuel n c l = some (p, c2, l2)) (hf : 1 ≤ fuel2) :
    find_dft_fuel fuel2 n c2 l2 = some (p, c2, l2) ∧
    (∀ m pm, c.lookup m = some pm → c2.lookup m = some pm) := by
  refine ⟨?_, find_dft_mono fuel n c l p c2 l2 h⟩
  cases fuel2 with
  | zero => exact absurd hf (by omega)
  | succ f2 =>
    rw [find_dft_fuel, find_dft_caches_self fuel n c l p c2 l2 h]

/-- C5 witness: construct the size-2 plan from the empty cache, then call
again. -/
theorem find_dft_plan_identity_witness :
    find_dft_fuel 1 2 [(2, PlanShape.direct 2)] initLore =
      some (PlanShape.direct 2, [(2, PlanShape.direct 2)], initLore) ∧
    (∀ m pm, List.lookup m ([] : PlanCache) = some pm →
      List.lookup m [(2, PlanShape.direct 2)] = some pm) :=
  find_dft_plan_identity 2 1 2 [] initLore (PlanShape.direct 2)
    [(2, PlanShape.direct 2)] initLore rfl (by decide)

/-! ## Factor-cache invariants

The properties below hold in the seeded state and are preserved by every
`find` call; they are what the selector's termination and the warm-state
characterization rest on. -/

/-- A successful association-list lookup yields a pair of the list. -/
theorem lookup_mem {β : Type} : ∀ (l : List (Nat × β)) (k : Nat) (v : β),
    List.lookup k l = some v → (k, v) ∈ l := by
  intro l
  induction l with
  | nil => intro k v h; exact Option.noConfusion h
  | cons kv tl ih =>
    intro k v h
    rw [List.lookup] at h
    cases hb : (k == kv.1) with
    | true =>
      rw [hb] at h
      obtain rfl := Option.some.inj h
      have : k = kv.1 := by simpa using hb
      subst this
      exact List.mem_cons_self _ _
    | false =>
      rw [hb] at h
      exact List.mem_cons_of_mem _ (ih k v h)

/-- `m | 1` in terms of arithmetic: set the lowest bit. -/
theorem lor_one_eq (m : Nat) : m ||| 1 = 2 * (m / 2) + 1 := by
  conv_lhs => rw [← Nat.bit_decomp m]
  have h1 : (1 : Nat) = Nat.bit true 0 := rfl
  rw [h1, Nat.lor_bit]
  simp [Nat.bit, Nat.div2_val]

/-- A found entry of the known-prime scan is a list element dividing `n`
within the scan bound. -/
theorem scanPrimes_sound : ∀ (l : List Nat) (n p : Nat),
    scanPrimes l n = some p → p ∈ l ∧ p * p ≤ n ∧ n % p = 0 := by
  intro l
  induction l with
  | nil => intro n p h; exact Option.noConfusion h
  | cons hd tl ih =>
    intro n p h
    rw [scanPrimes] at h
    split at h
    · exact Option.noConfusion h
    · split at h
      · obtain rfl := Option.some.inj h
        exact ⟨List.mem_cons_self _ _, by omega, by assumption⟩
      · obtain ⟨h1, h2, h3⟩ := ih n p h
        exact ⟨List.mem_cons_of_mem _ h1, h2, h3⟩

/-- If no list element is a divisor within the scan bound, the scan fails. -/
theorem scanPrimes_none (l : List Nat) (n : Nat)
    (h : ∀ p ∈ l, ¬(p * p ≤ n ∧ n % p = 0)) : scanPrimes l n = none := by
  cases hs : scanPrimes l n with
  | none => rfl
  | some p =>
    obtain ⟨h1, h2, h3⟩ := scanPrimes_sound l n p hs
    exact absurd ⟨h2, h3⟩ (h p h1)

/-- On a strictly sorted list containing a divisor within the scan bound, the
scan succeeds (the early `p * p > n` break cannot fire before reaching it). -/
theorem scanPrimes_finds : ∀ (l : List Nat) (n p : Nat),
    l.Pairwise (· < ·) → p ∈ l → p * p ≤ n → n % p = 0 →
    ∃ q, scanPrimes l n = some q := by
  intro l
  induction l with
  | nil => intro n p _ hp; exact absurd hp (List.not_mem_nil p)
  | cons hd tl ih =>
    intro n p hs hp hpp hdvd
    have hhd : hd ≤ p := by
      rcases List.mem_cons.mp hp with rfl | hmem
      · exact Nat.le_refl _
      · exact Nat.le_of_lt ((List.pairwise_cons.mp hs).1 p hmem)
    rw [scanPrimes]
    split
    · rename_i hgt
      have hmul : hd * hd ≤ p * p := Nat.mul_le_mul hhd hhd
      omega
    · split
      · exact ⟨hd, rfl⟩
      · rename_i hne
        rcases List.mem_cons.mp hp with rfl | hmem
        · exact absurd hdvd hne
        · exact ih n p (List.pairwise_cons.mp hs).2 hmem hpp hdvd

/-- A found entry of the odd-candidate scan is a divisor at least the start
value, within the scan bound. -/
theorem oddScan_sound : ∀ (fuel start n p : Nat),
    oddScan fuel start n = some p → start ≤ p ∧ p * p ≤ n ∧ n % p = 0 := by
  intro fuel
  induction fuel with
  | zero => intro start n p h; exact Option.noConfusion h
  | succ fuel ih =>
    intro start n p h
    rw [oddScan] at h
    split at h
    · split at h
      · obtain rfl := Option.some.inj h
        exact ⟨Nat.le_refl _, by assumption, by assumption⟩
      · obtain ⟨h1, h2, h3⟩ := ih (start + 2) n p h
        exact ⟨by omega, h2, h3⟩
    · exact Option.noConfusion h

/-- If no candidate at least `start` divides `n` within the scan bound, the
odd scan fails. -/
theorem oddScan_none (fuel start n : Nat)
    (h : ∀ q, start ≤ q → q * q ≤ n → ¬ n % q = 0) :
    oddScan fuel start n = none := by
  cases hs : oddScan fuel start n with
  | none => rfl
  | some p =>
    obtain ⟨h1, h2, h3⟩ := oddScan_sound fuel start n p hs
    exact absurd h3 (h p h1 h2)

/-- Characterization of the binary-search loop on a strictly sorted list:
when it answers `Err(pos)`, every element before `pos` is below the target
and every element from `pos` on is above it. -/
theorem bsearchGo_notFound (l : List Nat) (t : Nat) (hs : l.Pairwise (· < ·)) :
    ∀ (fuel left right pos : Nat),
      left ≤ right → right ≤ l.length → right - left < fuel →
      (∀ i, i < left → l.getD i 0 < t) →
      (∀ i, right ≤ i → i < l.length → t < l.getD i 0) →
      bsearchGo l t fuel left right = BRes.notFound pos →
      pos ≤ l.length ∧ (∀ i, i < pos → l.getD i 0 < t) ∧
        (∀ i, pos ≤ i → i < l.length → t < l.getD i 0) := by
  have hmono : ∀ i j, i ≤ j → j < l.length → l.getD i 0 ≤ l.getD j 0 := by
    intro i j hij hj
    rcases Nat.eq_or_lt_of_le hij with rfl | hlt
    · exact Nat.le_refl _
    · rw [List.getD_eq_getElem l 0 (by omega), List.getD_eq_getElem l 0 hj]
      exact Nat.le_of_lt (List.pairwise_iff_getElem.mp hs i j (by omega) hj hlt)
  intro fuel
  induction fuel with
  | zero => intro left right pos h1 h2 h3; omega
  | succ fuel ih =>
    intro left right pos h1 h2 h3 hlo hhi h
    rw [bsearchGo] at h
    split at h
    · rename_i hlr
      split at h
      · -- probe below target: recurse right half
        rename_i hvt
        refine ih (left + (right - left) / 2 + 1) right pos (by omega) h2 (by omega)
          ?_ hhi h
        intro i hi
        calc l.getD i 0 ≤ l.getD (left + (right - left) / 2) 0 :=
              hmono i _ (by omega) (by omega)
          _ < t := hvt
      · split at h
        · -- probe above target: recurse left half
          rename_i hvt htv
          refine ih left (left + (right - left) / 2) pos (by omega) (by omega)
            (by omega) hlo ?_ h
          intro i hi hil
          calc t < l.getD (left + (right - left) / 2) 0 := htv
            _ ≤ l.getD i 0 := hmono _ i hi hil
        · exact BRes.noConfusion h
    · rename_i hnl
      cases h
      exact ⟨by omega, hlo, fun i hi hil => hhi i (by omega) hil⟩

/-- Value of an `insertIdx` entry: up to `pos` the old entries, `t` at
`pos`, then the old entries shifted by one. -/
theorem getElem_insertIdx_cases (l : List Nat) (t pos : Nat) (hpos : pos ≤ l.length) :
    ∀ k, (hk : k < l.length + 1) →
      (l.insertIdx pos t).getD k 0 =
        if k < pos then l.getD k 0 else if k = pos then t else l.getD (k - 1) 0 := by
  intro k hk
  have hlen : (l.insertIdx pos t).length = l.length + 1 :=
    List.length_insertIdx pos l hpos
  rw [List.getD_eq_getElem _ 0 (by omega)]
  by_cases h1 : k < pos
  · rw [if_pos h1, List.getD_eq_getElem l 0 (by omega)]
    exact List.getElem_insertIdx_of_lt l t pos k h1 (by omega)
  · by_cases h2 : k = pos
    · subst h2
      rw [if_neg h1, if_pos rfl]
      exact List.getElem_insertIdx_self l t k hpos
    · obtain ⟨m, rfl⟩ : ∃ m, k = pos + m + 1 := ⟨k - pos - 1, by omega⟩
      rw [if_neg h1, if_neg h2, List.getD_eq_getElem l 0 (by omega)]
      have hms := List.getElem_insertIdx_add_succ l t pos m (by omega)
      simpa using hms

/-- Inserting at a position bracketed by the element values keeps the list
strictly sorted. -/
theorem insertIdx_sorted (l : List Nat) (t pos : Nat)
    (hs : l.Pairwise (· < ·)) (hpos : pos ≤ l.length)
    (hlo : ∀ i, i < pos → l.getD i 0 < t)
    (hhi : ∀ i, pos ≤ i → i < l.length → t < l.getD i 0) :
    (l.insertIdx pos t).Pairwise (· < ·) := by
  have hstrict : ∀ i j, i < j → j < l.length → l.getD i 0 < l.getD j 0 := by
    intro i j hij hj
    rw [List.getD_eq_getElem l 0 (by omega), List.getD_eq_getElem l 0 hj]
    exact List.pairwise_iff_getElem.mp hs i j (by omega) hj hij
  have hlen : (l.insertIdx pos t).length = l.length + 1 :=
    List.length_insertIdx pos l hpos
  rw [List.pairwise_iff_getElem]
  intro i j hi hj hij
  rw [← List.getD_eq_getElem _ 0 hi, ← List.getD_eq_getElem _ 0 hj]
  rw [hlen] at hi hj
  rw [getElem_insertIdx_cases l t pos hpos i hi,
    getElem_insertIdx_cases l t pos hpos j hj]
  by_cases hip : i < pos
  · rw [if_pos hip]
    by_cases hjp : j < pos
    · rw [if_pos hjp]
      exact hstrict i j hij (by omega)
    · by_cases hjq : j = pos
      · rw [if_neg hjp, if_pos hjq]
        exact hlo i hip
      · rw [if_neg hjp, if_neg hjq]
        exact hstrict i (j - 1) (by omega) (by omega)
  · by_cases hiq : i = pos
    · rw [if_neg hip, if_pos hiq]
      have hjp : ¬ j < pos := by omega
      have hjq : j ≠ pos := by omega
      rw [if_neg hjp, if_neg hjq]
      exact hhi (j - 1) (by omega) (by omega)
    · rw [if_neg hip, if_neg hiq]
      have hjp : ¬ j < pos := by omega
      have hjq : j ≠ pos := by omega
      rw [if_neg hjp, if_neg hjq]
      exact hstrict (i - 1) (j - 1) (by omega) (by omega)

/-- Inserting behind the head keeps the head. -/
theorem insertIdx_head (l : List Nat) (t pos : Nat) (hpos : 1 ≤ pos)
    (h : l.head? = some 2) : (l.insertIdx pos t).head? = some 2 := by
  cases l with
  | nil => exact absurd h (by simp)
  | cons a tl =>
    obtain ⟨p2, rfl⟩ : ∃ p2, pos = p2 + 1 := ⟨pos - 1, by omega⟩
    rw [List.insertIdx_succ_cons]
    simpa using h

/-- `bsearch` characterization on a strictly sorted list. -/
theorem bsearch_notFound (l : List Nat) (t pos : Nat) (hs : l.Pairwise (· < ·))
    (h : bsearch l t = BRes.notFound pos) :
    pos ≤ l.length ∧ (∀ i, i < pos → l.getD i 0 < t) ∧
      (∀ i, pos ≤ i → i < l.length → t < l.getD i 0) :=
  bsearchGo_notFound l t hs (l.length + 1) 0 l.length pos (by omega) (Nat.le_refl _)
    (by omega) (fun i hi => absurd hi (by omega))
    (fun i hi hil => absurd hil (by omega)) h

/-- Invariant satisfied by the seeded `PrimeLore` state and preserved by
every `find` call (hence holding for every reachable state of the global
cache):

* the seeds `0, 1, 2` are cached;
* every cached binding `k → v` has either `v = k` (declared prime) or `v` a
  proper divisor `≥ 2` of `k`;
* a binding `k → k` only exists for `k ≤ 3` or odd `k` (2 is always in the
  known-prime list, so even numbers `≥ 4` always get factor 2);
* even keys `≥ 4` are bound to `2`;
* the known-prime list is strictly sorted, starts with `2`, and is bounded
  by `last_prime`, which is at least `2`. -/
structure LoreInv (l : Lore) : Prop where
  seed0 : (l.smallest_factors.lookup 0).isSome
  seed1 : (l.smallest_factors.lookup 1).isSome
  seed2 : (l.smallest_factors.lookup 2).isSome
  vals : ∀ kv ∈ l.smallest_factors, kv.2 = kv.1 ∨ (2 ≤ kv.2 ∧ kv.2 ∣ kv.1 ∧ kv.2 < kv.1)
  valsOdd : ∀ kv ∈ l.smallest_factors, kv.2 = kv.1 → kv.1 ≤ 3 ∨ ¬ 2 ∣ kv.1
  valsEven : ∀ kv ∈ l.smallest_factors, 4 ≤ kv.1 → 2 ∣ kv.1 → kv.2 = 2
  sorted : l.primes.Pairwise (· < ·)
  headTwo : l.primes.head? = some 2
  bounded : ∀ p ∈ l.primes, p ≤ l.last_prime
  lastTwo : 2 ≤ l.last_prime

/-- The known-prime list starts with 2. -/
theorem LoreInv.primes_cons {l : Lore} (inv : LoreInv l) :
    ∃ rest, l.primes = 2 :: rest := by
  cases hp : l.primes with
  | nil => exact absurd (hp ▸ inv.headTwo) (by simp)
  | cons a rest =>
    have ha : a = 2 := by have := hp ▸ inv.headTwo; simpa using this
    subst ha
    exact ⟨rest, rfl⟩

/-- Every known prime is at least 2. -/
theorem LoreInv.primes_ge_two {l : Lore} (inv : LoreInv l) :
    ∀ p ∈ l.primes, 2 ≤ p := by
  obtain ⟨rest, hrest⟩ := inv.primes_cons
  intro p hp
  rw [hrest] at hp
  rcases List.mem_cons.mp hp with rfl | hmem
  · exact Nat.le_refl _
  · have hsorted := inv.sorted
    rw [hrest] at hsorted
    exact Nat.le_of_lt ((List.pairwise_cons.mp hsorted).1 p hmem)

/-- An uncached key is at least 3 (the seeds cover 0–2). -/
theorem LoreInv.miss_ge_three {l : Lore} {n : Nat} (inv : LoreInv l)
    (h : l.smallest_factors.lookup n = none) : 3 ≤ n := by
  by_contra h3
  push_neg at h3
  interval_cases n
  · exact absurd (h ▸ inv.seed0) (by simp)
  · exact absurd (h ▸ inv.seed1) (by simp)
  · exact absurd (h ▸ inv.seed2) (by simp)

/-- On an even `n ≥ 4`, the known-prime scan immediately returns 2. -/
theorem scanPrimes_even {l : Lore} (inv : LoreInv l) {n : Nat} (h4 : 4 ≤ n)
    (he : n % 2 = 0) : scanPrimes l.primes n = some 2 := by
  obtain ⟨rest, hrest⟩ := inv.primes_cons
  rw [hrest, scanPrimes, if_neg (by omega), if_pos he]

/-- Shape of `find` when the cache misses and the known-prime scan finds a
divisor. -/
theorem find_eq_of_scan {l : Lore} {n p : Nat}
    (hmiss : l.smallest_factors.lookup n = none)
    (hscan : scanPrimes l.primes n = some p) (hpn : p ≠ n) :
    l.find n = (p, { l with smallest_factors := (n, p) :: l.smallest_factors }) := by
  simp only [Lore.find, hmiss, hscan, if_neg hpn]

/-- Shape of `find` when the cache and known-prime scan miss but the odd
scan finds a divisor. -/
theorem find_eq_of_odd {l : Lore} {n q : Nat}
    (hmiss : l.smallest_factors.lookup n = none)
    (hscan : scanPrimes l.primes n = none)
    (hodd : oddScan (n + 1) (l.last_prime ||| 1) n = some q) (hqn : q ≠ n) :
    l.find n = (q, { l with smallest_factors := (n, q) :: l.smallest_factors }) := by
  simp only [Lore.find, hmiss, hscan, hodd]
  simp [hqn]

/-- Shape of `find` when `n` is declared prime and appended to the prime
list (`n` exceeds the last known prime). -/
theorem find_eq_prime_push {l : Lore} {n : Nat}
    (hmiss : l.smallest_factors.lookup n = none)
    (hscan : scanPrimes l.primes n = none)
    (hodd : oddScan (n + 1) (l.last_prime ||| 1) n = none)
    (hlast : l.last_prime < n) :
    l.find n = (n, { smallest_factors := (n, n) :: l.smallest_factors,
                     primes := l.primes ++ [n], last_prime := n }) := by
  simp only [Lore.find, hmiss, hscan, hodd]
  simp [hlast]

/-- Shape of `find` when `n` is declared prime and inserted into the middle
of the prime list by binary search. -/
theorem find_eq_prime_ins {l : Lore} {n pos : Nat}
    (hmiss : l.smallest_factors.lookup n = none)
    (hscan : scanPrimes l.primes n = none)
    (hodd : oddScan (n + 1) (l.last_prime ||| 1) n = none)
    (hlast : ¬ l.last_prime < n) (hbs : bsearch l.primes n = BRes.notFound pos) :
    l.find n = (n, { smallest_factors := (n, n) :: l.smallest_factors,
                     primes := l.primes.insertIdx pos n,
                     last_prime := l.last_prime }) := by
  simp only [Lore.find, hmiss, hscan, hodd, hbs]
  simp [hlast]

/-- Shape of `find` when `n` is declared prime but binary search already
finds it in the prime list. -/
theorem find_eq_prime_found {l : Lore} {n i : Nat}
    (hmiss : l.smallest_factors.lookup n = none)
    (hscan : scanPrimes l.primes n = none)
    (hodd : oddScan (n + 1) (l.last_prime ||| 1) n = none)
    (hlast : ¬ l.last_prime < n) (hbs : bsearch l.primes n = BRes.found i) :
    l.find n = (n, { l with smallest_factors := (n, n) :: l.smallest_factors }) := by
  simp only [Lore.find, hmiss, hscan, hodd, hbs]
  simp [hlast]

/-- Characterization of one `find` call from an invariant state: the
invariant is preserved; the result is `n` itself or a proper divisor `≥ 2`;
`n` is declared prime only when `n ≤ 3` or `n` is odd; even `n ≥ 4` always
get factor 2; the result is cached under key `n`; other cached keys are
untouched; the prime list only gains (possibly) `n`; and `last_prime` grows
at most to `n`. -/
theorem find_char (l : Lore) (n : Nat) (inv : LoreInv l) :
    LoreInv (l.find n).2 ∧
    ((l.find n).1 = n ∨ (2 ≤ (l.find n).1 ∧ (l.find n).1 ∣ n ∧ (l.find n).1 < n)) ∧
    ((l.find n).1 = n → n ≤ 3 ∨ ¬ 2 ∣ n) ∧
    (4 ≤ n → 2 ∣ n → (l.find n).1 = 2) ∧
    ((l.find n).2.smallest_factors.lookup n = some (l.find n).1) ∧
    (∀ m v, m ≠ n → l.smallest_factors.lookup m = some v →
      (l.find n).2.smallest_factors.lookup m = some v) ∧
    (∀ p ∈ l.primes, p ∈ (l.find n).2.primes) ∧
    (∀ p ∈ (l.find n).2.primes, p ∈ l.primes ∨ p = n) ∧
    l.last_prime ≤ (l.find n).2.last_prime ∧
    ((l.find n).2.last_prime = l.last_prime ∨ (l.find n).2.last_prime = n) := by
  cases hmiss : l.smallest_factors.lookup n with
  | some f =>
    have hfind : l.find n = (f, l) := by rw [Lore.find, hmiss]
    have hmem := lookup_mem _ _ _ hmiss
    rw [hfind]
    refine ⟨inv, ?_, ?_, ?_, hmiss, fun m v _ hv => hv, fun p hp => hp,
      fun p hp => Or.inl hp, Nat.le_refl _, Or.inl rfl⟩
    · exact inv.vals (n, f) hmem
    · intro hf
      exact inv.valsOdd (n, f) hmem hf
    · intro h4 he
      exact inv.valsEven (n, f) hmem h4 he
  | none =>
    have hn3 : 3 ≤ n := inv.miss_ge_three hmiss
    have hseeds : ∀ (map2 : List (Nat × Nat)),
        ((((n, n) :: l.smallest_factors : List (Nat × Nat)).lookup 0).isSome → True) := by
      intro _ _; trivial
    -- common facts for the new cache binding
    have hcons_seeds : ∀ v : Nat,
        (((n, v) :: l.smallest_factors : List (Nat × Nat)).lookup 0).isSome ∧
        (((n, v) :: l.smallest_factors : List (Nat × Nat)).lookup 1).isSome ∧
        (((n, v) :: l.smallest_factors : List (Nat × Nat)).lookup 2).isSome := by
      intro v
      rw [lookup_cons_ne (by omega), lookup_cons_ne (by omega), lookup_cons_ne (by omega)]
      exact ⟨inv.seed0, inv.seed1, inv.seed2⟩
    cases hscan : scanPrimes l.primes n with
    | some p =>
      obtain ⟨hpmem, hpp, hpdvd⟩ := scanPrimes_sound _ _ _ hscan
      have hp2 : 2 ≤ p := inv.primes_ge_two p hpmem
      have hpn : p < n := by nlinarith
      have hfind := find_eq_of_scan hmiss hscan (by omega)
      rw [hfind]
      have hpeven : 4 ≤ n → 2 ∣ n → p = 2 := by
        intro h4 he
        have h2 := scanPrimes_even inv h4 (Nat.mod_eq_zero_of_dvd he)
        rw [hscan] at h2
        exact (Option.some.inj h2)
      refine ⟨?_, Or.inr ⟨hp2, Nat.dvd_of_mod_eq_zero hpdvd, hpn⟩,
        fun hf => absurd hf (by omega), hpeven, lookup_cons_self,
        fun m v hm hv => by rw [lookup_cons_ne hm]; exact hv,
        fun r hr => hr, fun r hr => Or.inl hr, Nat.le_refl _, Or.inl rfl⟩
      obtain ⟨hs0, hs1, hs2⟩ := hcons_seeds p
      refine ⟨hs0, hs1, hs2, ?_, ?_, ?_, inv.sorted, inv.headTwo, inv.bounded, inv.lastTwo⟩
      · intro kv hkv
        rcases List.mem_cons.mp hkv with rfl | hold
        · exact Or.inr ⟨hp2, Nat.dvd_of_mod_eq_zero hpdvd, hpn⟩
        · exact inv.vals kv hold
      · intro kv hkv
        rcases List.mem_cons.mp hkv with rfl | hold
        · intro hf; exact absurd hf (by omega)
        · exact inv.valsOdd kv hold
      · intro kv hkv
        rcases List.mem_cons.mp hkv with rfl | hold
        · exact hpeven
        · exact inv.valsEven kv hold
    | none =>
      -- the known-prime scan failed, so n is not an even number ≥ 4
      have hnoteven : ¬ (4 ≤ n ∧ n % 2 = 0) := by
        rintro ⟨h4, he⟩
        have h2 := scanPrimes_even inv h4 he
        rw [hscan] at h2
        exact Option.noConfusion h2
      have hstart3 : 3 ≤ l.last_prime ||| 1 := by
        have := lor_one_eq l.last_prime
        have := inv.lastTwo
        omega
      cases hodd : oddScan (n + 1) (l.last_prime ||| 1) n with
      | some q =>
        obtain ⟨hq1, hqq, hqdvd⟩ := oddScan_sound _ _ _ _ hodd
        have hq2 : 2 ≤ q := by omega
        have hqn : q < n := by nlinarith
        have hfind := find_eq_of_odd hmiss hscan hodd (by omega)
        rw [hfind]
        have heven2 : 4 ≤ n → 2 ∣ n → q = 2 := by
          intro h4 he
          exact absurd ⟨h4, Nat.mod_eq_zero_of_dvd he⟩ hnoteven
        refine ⟨?_, Or.inr ⟨hq2, Nat.dvd_of_mod_eq_zero hqdvd, hqn⟩,
          fun hf => absurd hf (by omega), heven2, lookup_cons_self,
          fun m v hm hv => by rw [lookup_cons_ne hm]; exact hv,
          fun r hr => hr, fun r hr => Or.inl hr, Nat.le_refl _, Or.inl rfl⟩
        obtain ⟨hs0, hs1, hs2⟩ := hcons_seeds q
        refine ⟨hs0, hs1, hs2, ?_, ?_, ?_, inv.sorted, inv.headTwo, inv.bounded, inv.lastTwo⟩
        · intro kv hkv
          rcases List.mem_cons.mp hkv with rfl | hold
          · exact Or.inr ⟨hq2, Nat.dvd_of_mod_eq_zero hqdvd, hqn⟩
          · exact inv.vals kv hold
        · intro kv hkv
          rcases List.mem_cons.mp hkv with rfl | hold
          · intro hf; exact absurd hf (by omega)
          · exact inv.valsOdd kv hold
        · intro kv hkv
          rcases List.mem_cons.mp hkv with rfl | hold
          · exact heven2
          · exact inv.valsEven kv hold
      | none =>
        -- n is declared prime
        have hodd3 : n ≤ 3 ∨ ¬ 2 ∣ n := by
          by_cases h4 : 4 ≤ n
          · right
            intro he
            exact hnoteven ⟨h4, Nat.mod_eq_zero_of_dvd he⟩
          · left; omega
        have hvalsNew : ∀ (map2 : List (Nat × Nat)),
            (∀ kv ∈ map2, kv.2 = kv.1 ∨ (2 ≤ kv.2 ∧ kv.2 ∣ kv.1 ∧ kv.2 < kv.1)) →
            (∀ kv ∈ ((n, n) :: map2 : List (Nat × Nat)),
              kv.2 = kv.1 ∨ (2 ≤ kv.2 ∧ kv.2 ∣ kv.1 ∧ kv.2 < kv.1)) := by
          intro map2 hv kv hkv
          rcases List.mem_cons.mp hkv with rfl | hold
          · exact Or.inl rfl
          · exact hv kv hold
        by_cases hlast : l.last_prime < n
        · -- push branch
          have hfind := find_eq_prime_push hmiss hscan hodd hlast
          rw [hfind]
          have hsorted2 : (l.primes ++ [n]).Pairwise (· < ·) := by
            rw [List.pairwise_append]
            refine ⟨inv.sorted, List.pairwise_singleton _ _, ?_⟩
            intro a ha b hb
            rw [List.mem_singleton.mp hb]
            exact Nat.lt_of_le_of_lt (inv.bounded a ha) hlast
          obtain ⟨rest, hrest⟩ := inv.primes_cons
          refine ⟨?_, Or.inl rfl, fun _ => hodd3, ?_, lookup_cons_self,
            fun m v hm hv => by rw [lookup_cons_ne hm]; exact hv,
            fun r hr => List.mem_append_left _ hr,
            fun r hr => (List.mem_append.mp hr).imp id
              (fun hx => List.mem_singleton.mp hx),
            show l.last_prime ≤ n from by omega, Or.inr rfl⟩
          · obtain ⟨hs0, hs1, hs2⟩ := hcons_seeds n
            refine ⟨hs0, hs1, hs2, hvalsNew _ inv.vals, ?_, ?_, hsorted2, ?_, ?_,
              show 2 ≤ n from by omega⟩
            · intro kv hkv
              rcases List.mem_cons.mp hkv with rfl | hold
              · intro _; exact hodd3
              · exact inv.valsOdd kv hold
            · intro kv hkv
              rcases List.mem_cons.mp hkv with rfl | hold
              · intro h4 he
                exact absurd ⟨h4, Nat.mod_eq_zero_of_dvd he⟩ hnoteven
              · exact inv.valsEven kv hold
            · rw [hrest]; rfl
            · intro p hp
              rcases List.mem_append.mp hp with hold | hnew
              · exact Nat.le_of_lt (Nat.lt_of_le_of_lt (inv.bounded p hold) hlast)
              · rw [List.mem_singleton.mp hnew]
          · intro h4 he
            exact absurd ⟨h4, Nat.mod_eq_zero_of_dvd he⟩ hnoteven
        · -- binary-search branch
          cases hbs : bsearch l.primes n with
          | found i =>
            have hfind := find_eq_prime_found hmiss hscan hodd hlast hbs
            rw [hfind]
            refine ⟨?_, Or.inl rfl, fun _ => hodd3, ?_, lookup_cons_self,
              fun m v hm hv => by rw [lookup_cons_ne hm]; exact hv,
              fun r hr => hr, fun r hr => Or.inl hr, Nat.le_refl _, Or.inl rfl⟩
            · obtain ⟨hs0, hs1, hs2⟩ := hcons_seeds n
              refine ⟨hs0, hs1, hs2, hvalsNew _ inv.vals, ?_, ?_,
                inv.sorted, inv.headTwo, inv.bounded, inv.lastTwo⟩
              · intro kv hkv
                rcases List.mem_cons.mp hkv with rfl | hold
                · intro _; exact hodd3
                · exact inv.valsOdd kv hold
              · intro kv hkv
                rcases List.mem_cons.mp hkv with rfl | hold
                · intro h4 he
                  exact absurd ⟨h4, Nat.mod_eq_zero_of_dvd he⟩ hnoteven
                · exact inv.valsEven kv hold
            · intro h4 he
              exact absurd ⟨h4, Nat.mod_eq_zero_of_dvd he⟩ hnoteven
          | notFound pos =>
            have hfind := find_eq_prime_ins hmiss hscan hodd hlast hbs
            rw [hfind]
            obtain ⟨hposlen, hlow, hhigh⟩ := bsearch_notFound _ _ _ inv.sorted hbs
            have hsorted2 := insertIdx_sorted l.primes n pos inv.sorted hposlen hlow hhigh
            have hpos1 : 1 ≤ pos := by
              by_contra hp0
              obtain ⟨rest, hrest⟩ := inv.primes_cons
              have h0 : n < l.primes.getD 0 0 := hhigh 0 (by omega) (by rw [hrest]; simp)
              rw [hrest] at h0
              simp [List.getD] at h0
              omega
            refine ⟨?_, Or.inl rfl, fun _ => hodd3, ?_, lookup_cons_self,
              fun m v hm hv => by rw [lookup_cons_ne hm]; exact hv,
              fun r hr => (List.mem_insertIdx hposlen).mpr (Or.inr hr),
              fun r hr => ((List.mem_insertIdx hposlen).mp hr).symm.imp id (fun h => h),
              Nat.le_refl _, Or.inl rfl⟩
            · obtain ⟨hs0, hs1, hs2⟩ := hcons_seeds n
              refine ⟨hs0, hs1, hs2, hvalsNew _ inv.vals, ?_, ?_, hsorted2,
                insertIdx_head _ _ _ hpos1 inv.headTwo, ?_, inv.lastTwo⟩
              · intro kv hkv
                rcases List.mem_cons.mp hkv with rfl | hold
                · intro _; exact hodd3
                · exact inv.valsOdd kv hold
              · intro kv hkv
                rcases List.mem_cons.mp hkv with rfl | hold
                · intro h4 he
                  exact absurd ⟨h4, Nat.mod_eq_zero_of_dvd he⟩ hnoteven
                · exact inv.valsEven kv hold
              · intro r hr
                rcases (List.mem_insertIdx hposlen).mp hr with rfl | hold
                · show r ≤ l.last_prime
                  omega
                · exact inv.bounded r hold
            · intro h4 he
              exact absurd ⟨h4, Nat.mod_eq_zero_of_dvd he⟩ hnoteven

/-- Characterization of the division loop of `get_factors_all` from an
invariant state: the loop pushes at least one factor, the first pushed
factor is the `find` result for `n`, exactly one factor is pushed iff `n`
is declared (its own) smallest factor, the invariant is preserved, `n` ends
up cached, and cached keys above `n` are untouched. -/
theorem gfaGo_char : ∀ (n fuel : Nat), n ≤ fuel → ∀ (lore : Lore) (acc : List Nat) (cnt : Nat),
    LoreInv lore → 2 ≤ n →
    ∃ fs l2, gfaGo fuel n lore acc cnt = (acc ++ fs, cnt + fs.length, l2) ∧
      1 ≤ fs.length ∧ fs.getD 0 0 = (lore.find n).1 ∧ LoreInv l2 ∧
      (fs.length = 1 ↔ (lore.find n).1 = n) ∧
      l2.smallest_factors.lookup n = some (lore.find n).1 ∧
      (∀ m v, n < m → lore.smallest_factors.lookup m = some v →
        l2.smallest_factors.lookup m = some v) := by
  intro n
  induction n using Nat.strong_induction_on with
  | _ n ih =>
    intro fuel hfuel lore acc cnt inv hn
    obtain ⟨f1, rfl⟩ : ∃ f1, fuel = f1 + 1 := ⟨fuel - 1, by omega⟩
    obtain ⟨hinv2, htri, _, _, hcache, hothers, -, -, -, -⟩ := find_char lore n inv
    rw [gfaGo]
    by_cases hstop : (lore.find n).1 = n
    · refine ⟨[(lore.find n).1], (lore.find n).2, ?_, by simp, by simp, hinv2,
        by simpa using hstop, hcache, ?_⟩
      · simp [hstop]
      · intro m v hm hv
        exact hothers m v (by omega) hv
    · have hdiv : 2 ≤ (lore.find n).1 ∧ (lore.find n).1 ∣ n ∧ (lore.find n).1 < n :=
        htri.resolve_left hstop
      obtain ⟨k, hk⟩ := hdiv.2.1
      have hdf : n / (lore.find n).1 = k := by
        refine Nat.div_eq_of_eq_mul_left (by omega) ?_
        conv_lhs => rw [hk]
        exact Nat.mul_comm _ _
      have hk2 : 2 ≤ k := by
        rcases k with _ | _ | k
        · simp at hk; omega
        · simp at hk; omega
        · omega
      have hq2 : 2 ≤ n / (lore.find n).1 := by omega
      have hqlt : n / (lore.find n).1 < n := Nat.div_lt_self (by omega) (by omega)
      obtain ⟨fs2, l3, hrec, hlen2, hhead2, hinv3, hone2, hcache2, hothers2⟩ :=
        ih (n / (lore.find n).1) hqlt f1 (by omega) (lore.find n).2
          (acc ++ [(lore.find n).1]) (cnt + 1) hinv2 hq2
      refine ⟨(lore.find n).1 :: fs2, l3, ?_, by simp, by simp, hinv3, ?_, ?_, ?_⟩
      · rw [if_neg hstop, hrec]
        simp only [Prod.mk.injEq, List.length_cons]
        refine ⟨by simp, by omega, by simp⟩
      · constructor
        · intro hl1
          rw [List.length_cons] at hl1
          omega
        · intro hfn
          exact absurd hfn hstop
      · have := hothers2 n (lore.find n).1 hqlt hcache
        exact this
      · intro m v hm hv
        exact hothers2 m v (by omega) (hothers m v (by omega) hv)

/-- Characterization of `get_factors_all` from an invariant state (for
`n ≥ 2`): the invariant is preserved, the count is at least 1, the first
factor is the `find` result for `n`, the count is exactly 1 iff `n` is
declared prime, and `n` ends up cached with that result. -/
theorem gfa_char (lore : Lore) (n : Nat) (inv : LoreInv lore) (hn : 2 ≤ n) :
    LoreInv (get_factors_all lore n).2.2 ∧
    1 ≤ (get_factors_all lore n).2.1 ∧
    (get_factors_all lore n).1.getD 0 0 = (lore.find n).1 ∧
    ((get_factors_all lore n).2.1 = 1 ↔ (lore.find n).1 = n) ∧
    (get_factors_all lore n).2.2.smallest_factors.lookup n = some (lore.find n).1 := by
  obtain ⟨fs, l2, heq, hlen, hhead, hinv2, hone, hcache, -⟩ :=
    gfaGo_char n n (Nat.le_refl n) lore [] 0 inv hn
  rw [get_factors_all, if_neg (by omega), heq]
  exact ⟨hinv2, by simpa using hlen, by simpa using hhead, by simpa using hone, hcache⟩

/-! ## Termination of `find_dft` (C6)

The recursion measure: plans for powers of two only recurse into smaller
powers of two; all other sizes `n` recurse into sizes below `5·n` (Bluestein
uses the next power of two above `2n−1`, which is below `4n`). -/

/-- Decidable power-of-two test (the exponent of a power of two `n` is below
`n + 1`). -/
def pow2b (n : Nat) : Bool :=
  (List.range (n + 1)).any fun k => n == 2 ^ k

/-- `pow2b` decides being a power of two. -/
theorem pow2b_iff (n : Nat) : pow2b n = true ↔ ∃ k, n = 2 ^ k := by
  rw [pow2b, List.any_eq_true]
  constructor
  · rintro ⟨k, -, hk⟩
    exact ⟨k, by simpa using hk⟩
  · rintro ⟨k, hk⟩
    refine ⟨k, List.mem_range.mpr ?_, by simpa using hk⟩
    subst hk
    exact Nat.lt_succ_of_lt (Nat.lt_two_pow k)

/-- The recursion measure for `find_dft`. -/
def mu (n : Nat) : Nat :=
  if pow2b n then n else 5 * n

/-- The measure is bounded by `5 n`. -/
theorem mu_le_five (n : Nat) : mu n ≤ 5 * n := by
  rw [mu]
  split <;> omega

/-- The measure is at least `n`. -/
theorem le_mu (n : Nat) : n ≤ mu n := by
  rw [mu]
  split <;> omega

/-- The measure of a power of two is itself. -/
theorem mu_pow2 {n : Nat} (h : pow2b n = true) : mu n = n := by
  rw [mu, if_pos h]

/-- Odd numbers `≥ 3` are not powers of two. -/
theorem pow2b_odd {n : Nat} (hodd : ¬ 2 ∣ n) (h3 : 3 ≤ n) : pow2b n = false := by
  rw [← Bool.not_eq_true, pow2b_iff]
  rintro ⟨k, rfl⟩
  cases k with
  | zero => simp at h3
  | succ k => exact hodd ⟨2 ^ k, by rw [Nat.pow_succ]; ring⟩

/-- Halving a power of two `≥ 16` gives a smaller power of two, and such a
number is even. -/
theorem pow2b_half {n : Nat} (h : pow2b n = true) (h16 : 16 ≤ n) :
    pow2b (n / 2) = true ∧ 2 ∣ n := by
  obtain ⟨k, rfl⟩ := (pow2b_iff n).mp h
  have hk : 4 ≤ k := by
    by_contra hk
    push_neg at hk
    interval_cases k <;> omega
  obtain ⟨k1, rfl⟩ : ∃ k1, k = k1 + 1 := ⟨k - 1, by omega⟩
  constructor
  · rw [pow2b_iff]
    exact ⟨k1, by rw [Nat.pow_succ, Nat.mul_div_cancel _ (by norm_num)]⟩
  · exact ⟨2 ^ k1, by rw [Nat.pow_succ]; ring⟩

/-- A power of two `≥ 7` other than 8 is at least 16. -/
theorem pow2b_ge_sixteen {n : Nat} (h : pow2b n = true) (h7 : 7 ≤ n)
    (h8 : n ≠ 8) : 16 ≤ n := by
  obtain ⟨k, rfl⟩ := (pow2b_iff n).mp h
  have hk : 4 ≤ k := by
    by_contra hkk
    push_neg at hkk
    interval_cases k <;> omega
  calc 16 = 2 ^ 4 := by norm_num
    _ ≤ 2 ^ k := Nat.pow_le_pow_right (by norm_num) hk

/-- The doubling loop returns a power of two when started on one. -/
theorem np2Go_pow2 : ∀ (fuel m acc : Nat), (∃ j, acc = 2 ^ j) →
    ∃ k, np2Go m fuel acc = 2 ^ k := by
  intro fuel
  induction fuel with
  | zero => intro m acc h; exact h
  | succ fuel ih =>
    intro m acc h
    rw [np2Go]
    split
    · exact h
    · obtain ⟨j, rfl⟩ := h
      exact ih m _ ⟨j + 1, by rw [Nat.pow_succ]; ring⟩

/-- The doubling loop reaches at least `m` given enough fuel. -/
theorem np2Go_ge : ∀ (fuel m acc : Nat), m ≤ 2 ^ fuel * acc →
    m ≤ np2Go m fuel acc := by
  intro fuel
  induction fuel with
  | zero => intro m acc h; simpa using h
  | succ fuel ih =>
    intro m acc h
    rw [np2Go]
    split
    · assumption
    · refine ih m (2 * acc) ?_
      rw [Nat.pow_succ] at h
      calc m ≤ 2 ^ fuel * 2 * acc := h
        _ = 2 ^ fuel * (2 * acc) := by ring

/-- The doubling loop never overshoots `2 m` (for `m ≥ 1`). -/
theorem np2Go_lt : ∀ (fuel m acc : Nat), 1 ≤ m → acc < 2 * m →
    np2Go m fuel acc < 2 * m := by
  intro fuel
  induction fuel with
  | zero => intro m acc _ h; simpa using h
  | succ fuel ih =>
    intro m acc hm h
    rw [np2Go]
    split
    · assumption
    · rename_i hacc
      push_neg at hacc
      exact ih m (2 * acc) hm (by omega)

/-- `next_power_of_two` facts: the result is a power of two, at least `m`,
and below `2 m` (for `m ≥ 2`). -/
theorem np2_spec (m : Nat) (hm : 2 ≤ m) :
    (∃ k, np2 m = 2 ^ k) ∧ m ≤ np2 m ∧ np2 m < 2 * m := by
  refine ⟨np2Go_pow2 m m 1 ⟨0, rfl⟩, np2Go_ge m m 1 ?_, np2Go_lt m m 1 (by omega) (by omega)⟩
  have := Nat.lt_two_pow m
  omega

/-- A cached key makes `find` a pure lookup. -/
theorem find_cached_eq {l : Lore} {n v : Nat}
    (h : l.smallest_factors.lookup n = some v) : l.find n = (v, l) := by
  rw [Lore.find, h]

/-- A proper divisor `≥ 2` yields a cofactor that is `≥ 2`, below `n`, and
at most `n / 2`-sized on both sides: `2 p ≤ n` and `2 (n / p) ≤ n`. -/
theorem cofactor_bounds {f n : Nat} (h2 : 2 ≤ f) (hd : f ∣ n) (hlt : f < n) :
    2 ≤ n / f ∧ n / f < n ∧ 2 * f ≤ n ∧ 2 * (n / f) ≤ n := by
  obtain ⟨k, hk⟩ := hd
  have hdf : n / f = k := by
    refine Nat.div_eq_of_eq_mul_left (by omega) ?_
    conv_lhs => rw [hk]
    exact Nat.mul_comm _ _
  have hk2 : 2 ≤ k := by
    rcases k with _ | _ | k
    · simp at hk; omega
    · simp at hk; omega
    · omega
  have h2f : 2 * f ≤ n := by
    calc 2 * f ≤ k * f := Nat.mul_le_mul_right f hk2
      _ = f * k := Nat.mul_comm _ _
      _ = n := hk.symm
  have h2k : 2 * k ≤ n := by
    calc 2 * k ≤ f * k := Nat.mul_le_mul_right k h2
      _ = n := hk.symm
  exact ⟨by omega, by omega, h2f, by omega⟩

/-- `DFTRadix::new` succeeds (with the invariant preserved) whenever `n` has
a cached proper smallest factor and the recursive calls succeed on smaller
measures. -/
theorem DFTRadix_new_total
    (recur : Nat → PlanCache → Lore → Option (PlanShape × PlanCache × Lore))
    (n : Nat) (cache : PlanCache) (lore : Lore) (f0 : Nat)
    (inv : LoreInv lore) (hn : 7 ≤ n) (hn8 : n ≠ 8)
    (hc : lore.smallest_factors.lookup n = some f0)
    (hf02 : 2 ≤ f0) (hf0d : f0 ∣ n) (hf0l : f0 < n)
    (hrec : ∀ k c l, LoreInv l → 1 ≤ k → mu k < mu n →
      ∃ p c2 l2, recur k c l = some (p, c2, l2) ∧ LoreInv l2) :
    ∃ r, DFTRadix_new recur n cache lore = some r ∧ LoreInv r.2.2 := by
  have hfind := find_cached_eq hc
  obtain ⟨inv1, hcnt1, hhead1, hiff1, hcache1⟩ := gfa_char lore n inv (by omega)
  rw [hfind] at hhead1 hiff1
  have hf0ne : f0 ≠ n := by omega
  have hcntpos : 0 < (get_factors_all lore n).2.1 := hcnt1
  obtain ⟨hq2, hqlt, h2p, h2q⟩ := cofactor_bounds hf02 hf0d hf0l
  -- measure decrease for both sub-sizes
  have hmup : mu f0 < mu n ∧ mu (n / f0) < mu n := by
    cases hpow : pow2b n with
    | true =>
      have h16 := pow2b_ge_sixteen hpow (by omega) hn8
      obtain ⟨hhalf, heven⟩ := pow2b_half hpow h16
      have hf02' : f0 = 2 := inv.valsEven (n, f0) (lookup_mem _ _ _ hc) (by omega) heven
      rw [mu_pow2 hpow]
      constructor
      · rw [hf02']
        have : mu 2 = 2 := by decide
        omega
      · rw [hf02', mu_pow2 hhalf]
        omega
    | false =>
      have hmun : mu n = 5 * n := by rw [mu, hpow]; simp
      have h1 := mu_le_five f0
      have h2 := mu_le_five (n / f0)
      omega
  obtain ⟨sp, c2, l2, hp, inv2⟩ :=
    hrec f0 cache (get_factors_all lore n).2.2 inv1 (by omega) hmup.1
  obtain ⟨sq, c3, l3, hq, inv3⟩ := hrec (n / f0) c2 l2 inv2 (by omega) hmup.2
  have hhead1' : (get_factors_all lore n).1.getD 0 0 = f0 := hhead1
  simp only [DFTRadix_new]
  rw [if_pos hcntpos, hhead1', if_pos (show (1:Nat) < f0 by omega)]
  simp only [hp]
  rw [if_pos (show (1:Nat) < n / f0 by omega)]
  simp only [hq]
  exact ⟨_, rfl, inv3⟩

/-- Totality of the fuelled `find_dft`: from any invariant factor-cache
state, fuel exceeding the measure `mu n` suffices for the recursion to
return a plan (with the invariant preserved). -/
theorem find_dft_total : ∀ (fuel n : Nat) (cache : PlanCache) (lore : Lore),
    LoreInv lore → 1 ≤ n → mu n < fuel →
    ∃ p c2 l2, find_dft_fuel fuel n cache lore = some (p, c2, l2) ∧ LoreInv l2 := by
  intro fuel
  induction fuel with
  | zero => intro n _ _ _ _ hmu; exact absurd hmu (by omega)
  | succ fuel ih =>
    intro n cache lore inv hn hmu
    rw [find_dft_fuel]
    cases hcl : cache.lookup n with
    | some plan => exact ⟨plan, cache, lore, rfl, inv⟩
    | none =>
      have hbuildT : ∃ r, find_dft_build (find_dft_fuel fuel) n cache lore = some r ∧
          LoreInv r.2.2 := by
        by_cases h1 : n = 1
        · refine ⟨(PlanShape.direct 1, cache, lore), ?_, inv⟩
          rw [find_dft_build, if_pos h1]
        by_cases h2 : n = 2
        · refine ⟨(PlanShape.direct 2, cache, lore), ?_, inv⟩
          rw [find_dft_build, if_neg h1, if_pos h2]
        by_cases h3 : n = 3
        · refine ⟨(PlanShape.direct 3, cache, lore), ?_, inv⟩
          rw [find_dft_build, if_neg h1, if_neg h2, if_pos h3]
        by_cases h4 : n = 4
        · refine ⟨(PlanShape.direct 4, cache, lore), ?_, inv⟩
          rw [find_dft_build, if_neg h1, if_neg h2, if_neg h3, if_pos h4]
        by_cases h5 : n = 5
        · refine ⟨(PlanShape.direct 5, cache, lore), ?_, inv⟩
          rw [find_dft_build, if_neg h1, if_neg h2, if_neg h3, if_neg h4, if_pos h5]
        by_cases h6 : n = 6
        · refine ⟨(PlanShape.direct 6, cache, lore), ?_, inv⟩
          rw [find_dft_build, if_neg h1, if_neg h2, if_neg h3, if_neg h4, if_neg h5,
            if_pos h6]
        by_cases h8 : n = 8
        · refine ⟨(PlanShape.direct 8, cache, lore), ?_, inv⟩
          rw [find_dft_build, if_neg h1, if_neg h2, if_neg h3, if_neg h4, if_neg h5,
            if_neg h6, if_pos h8]
        have hn7 : 7 ≤ n := by omega
        rw [find_dft_build, if_neg h1, if_neg h2, if_neg h3, if_neg h4, if_neg h5,
          if_neg h6, if_neg h8]
        obtain ⟨inv1, hcnt1, hhead1, hiff1, hcache1⟩ := gfa_char lore n inv (by omega)
        have hrec' : ∀ k c l, LoreInv l → 1 ≤ k → mu k < mu n →
            ∃ p c2 l2, find_dft_fuel fuel k c l = some (p, c2, l2) ∧ LoreInv l2 := by
          intro k c l invl hk hmk
          exact ih k c l invl hk (by omega)
        by_cases hcnt2 : 2 ≤ (get_factors_all lore n).2.1
        · rw [if_pos hcnt2]
          have hfne : (lore.find n).1 ≠ n := by
            intro he
            have := hiff1.mpr he
            omega
          rcases (find_char lore n inv).2.1 with hfn | ⟨hf2, hfd, hfl⟩
          · exact absurd hfn hfne
          exact DFTRadix_new_total (find_dft_fuel fuel) n cache
            (get_factors_all lore n).2.2 (lore.find n).1 inv1 hn7 h8
            hcache1 hf2 hfd hfl hrec'
        · rw [if_neg hcnt2]
          have hcnt : (get_factors_all lore n).2.1 = 1 := by omega
          have hfn : (lore.find n).1 = n := hiff1.mp hcnt
          have hodd : ¬ 2 ∣ n := by
            rcases (find_char lore n inv).2.2.1 hfn with hle3 | ho
            · omega
            · exact ho
          have hpow : pow2b n = false := pow2b_odd hodd (by omega)
          have hmun : mu n = 5 * n := by rw [mu, hpow]; simp
          have hcs : csub (2 * n) 1 = some (2 * n - 1) := by
            rw [csub, if_pos (by omega)]
          simp only [hcs]
          rw [if_neg (show ¬ (get_factors_all lore n).2.1 = 0 by omega)]
          obtain ⟨⟨k, hk⟩, hge, hlt⟩ := np2_spec (2 * n - 1) (by omega)
          have hpownb : pow2b (np2 (2 * n - 1)) = true := (pow2b_iff _).mpr ⟨k, hk⟩
          have hmunb : mu (np2 (2 * n - 1)) < mu n := by
            rw [mu_pow2 hpownb]
            omega
          obtain ⟨pb, cb, lb, hb, hinvb⟩ :=
            ih (np2 (2 * n - 1)) cache (get_factors_all lore n).2.2 inv1 (by omega)
              (by omega)
          refine ⟨(PlanShape.bluestein n (np2 (2 * n - 1)) pb, cb, lb), ?_, hinvb⟩
          rw [DFTBluestein_new]
          simp only [hb]
      obtain ⟨⟨p, c2, l2⟩, hbuild, hinv⟩ := hbuildT
      refine ⟨p, (n, p) :: c2, l2, ?_, hinv⟩
      show (find_dft_build (find_dft_fuel fuel) n cache lore).map
        (fun r => (r.1, (n, r.1) :: r.2.1, r.2.2)) = some (p, (n, p) :: c2, l2)
      rw [hbuild]
      rfl

/-- The seeded factor-cache state satisfies the invariant. -/
theorem initLore_inv : LoreInv initLore := by
  constructor <;> decide

/-- C6.  `find_dft(n)` terminates for every `n ≥ 1`: fuel `5·n + 1` (one
unit per nesting level of the recursion) always suffices for the fuelled
recursion to produce a plan, from any plan cache and any invariant
factor-cache state.  The sub-sizes strictly decrease the measure `mu`
(powers of two recurse only into smaller powers of two; the Bluestein
branch, reached only for odd non-direct sizes, recurses into the power of
two `N_b < 4n − 2`), so the recursion bottoms out at the direct kernel
sizes in finitely many steps. -/
theorem find_dft_terminates (n : Nat) (cache : PlanCache) (lore : Lore)
    (inv : LoreInv lore) (hn : 1 ≤ n) :
    ∃ p c2 l2, find_dft_fuel (5 * n + 1) n cache lore = some (p, c2, l2) := by
  obtain ⟨p, c2, l2, h, -⟩ := find_dft_total (5 * n + 1) n cache lore inv hn
    (by have := mu_le_five n; omega)
  exact ⟨p, c2, l2, h⟩

/-- C6 witness: the request for size 7 from the seeded state and the empty
plan cache succeeds within fuel 36. -/
theorem find_dft_terminates_witness :
    LoreInv initLore ∧ 1 ≤ 7 ∧
    ∃ p c2 l2, find_dft_fuel (5 * 7 + 1) 7 ([] : PlanCache) initLore =
      some (p, c2, l2) :=
  ⟨initLore_inv, by omega, find_dft_terminates 7 [] initLore initLore_inv (by omega)⟩

/-! ## The strategy actually selected for primes (C2)

`find_dft` guards the Rader arm by `count == 0`, but `get_factors_all`
returns `count ≥ 1` for every `n ≥ 2`, so the Rader arm is unreachable and
every prime size takes the Bluestein arm — including primes whose
predecessor is composite, which the spec routes to Rader. -/

/-- From any invariant state, `find` on a prime returns the prime itself
(a result that differed would be a proper divisor `2 ≤ d < n`). -/
theorem find_prime_eq {l : Lore} {n : Nat} (inv : LoreInv l) (hp : Nat.Prime n) :
    (l.find n).1 = n := by
  rcases (find_char l n inv).2.1 with h | ⟨h2, hd, hl⟩
  · exact h
  · rcases hp.eq_one_or_self_of_dvd _ hd with h1 | hs <;> omega

/-- C2.  Refutation of the spec's selector rule on the prime size 7: 7 is
prime and its predecessor 6 is composite (`get_factors_all 6` yields `≥ 2`
factors), so the spec's rule selects Rader; but from every invariant factor
state the code returns a Bluestein plan with `N_b = 16` for size 7.  The
Rader arm is guarded by `count == 0`, which never holds (`get_factors_all`
returns at least one factor for every `n ≥ 2`), so every prime size takes
the Bluestein arm. -/
theorem find_dft_prime_seven_bluestein (cache : PlanCache) (lore : Lore)
    (inv : LoreInv lore) (hcl : cache.lookup 7 = none) :
    Nat.Prime 7 ∧ 2 ≤ (get_factors_all lore 6).2.1 ∧
    ∃ sub c2 l2, find_dft_fuel 36 7 cache lore =
      some (PlanShape.bluestein 7 16 sub, c2, l2) := by
  have hp7 : Nat.Prime 7 := by norm_num
  obtain ⟨inv1, hcnt1, -, hiff1, -⟩ := gfa_char lore 7 inv (by omega)
  have hf7 : (lore.find 7).1 = 7 := find_prime_eq inv hp7
  have hcnt : (get_factors_all lore 7).2.1 = 1 := hiff1.mpr hf7
  refine ⟨hp7, ?_, ?_⟩
  · obtain ⟨-, hcnt6, -, hiff6, -⟩ := gfa_char lore 6 inv (by omega)
    have h6 : (lore.find 6).1 = 2 :=
      (find_char lore 6 inv).2.2.2.1 (by omega) (by omega)
    have hne1 : ¬ (get_factors_all lore 6).2.1 = 1 := by
      rw [hiff6, h6]
      omega
    omega
  · obtain ⟨pb, cb, lb, hb, -⟩ := find_dft_total 35 16 cache
      (get_factors_all lore 7).2.2 inv1 (by omega) (by decide)
    have hbuild : find_dft_build (find_dft_fuel 35) 7 cache lore =
        some (PlanShape.bluestein 7 16 pb, cb, lb) := by
      rw [find_dft_build, if_neg (by decide), if_neg (by decide), if_neg (by decide),
        if_neg (by decide), if_neg (by decide), if_neg (by decide), if_neg (by decide)]
      rw [if_neg (show ¬ 2 ≤ (get_factors_all lore 7).2.1 by omega)]
      have hcs : csub (2 * 7) 1 = some 13 := by decide
      simp only [hcs]
      rw [if_neg (show ¬ (get_factors_all lore 7).2.1 = 0 by omega)]
      have hnp : np2 13 = 16 := by decide
      rw [hnp, DFTBluestein_new]
      simp only [hb]
    refine ⟨pb, (7, PlanShape.bluestein 7 16 pb) :: cb, lb, ?_⟩
    show find_dft_fuel (35 + 1) 7 cache lore = _
    rw [find_dft_fuel, hcl]
    show (find_dft_build (find_dft_fuel 35) 7 cache lore).map
      (fun r => (r.1, (7, r.1) :: r.2.1, r.2.2)) = _
    rw [hbuild]
    rfl

/-- C2 witness: size 7 requested from the seeded state and the empty plan
cache. -/
theorem find_dft_prime_seven_bluestein_witness :
    LoreInv initLore ∧ List.lookup 7 ([] : PlanCache) = none ∧
    (Nat.Prime 7 ∧ 2 ≤ (get_factors_all initLore 6).2.1 ∧
     ∃ sub c2 l2, find_dft_fuel 36 7 ([] : PlanCache) initLore =
       some (PlanShape.bluestein 7 16 sub, c2, l2)) :=
  ⟨initLore_inv, rfl,
   find_dft_prime_seven_bluestein [] initLore initLore_inv rfl⟩

/-! ## The factor cache declares a composite prime (C4)

`PrimeLore::find` starts its odd-candidate scan at `last_prime | 1` rather
than at a small constant.  After the warming loop every cached key, every
known prime and `last_prime` are below 1024.  A later `find(1033)`
correctly declares the prime 1033 and raises `last_prime` to 1033; the
following `find(1031²)` then tries no candidate at all — every known prime
fails `p·p ≤ n ∧ p ∣ n`, and the odd scan starts at `1033 | 1 = 1033`,
whose square already exceeds 1031² — so the composite 1031² = 1062961 is
declared prime and cached as its own smallest factor. -/

/-- Keys of the factor map after a `find`: the old bindings plus (possibly)
one for the requested key. -/
theorem find_keys_sub (l : Lore) (n : Nat) :
    ∀ kv ∈ (l.find n).2.smallest_factors, kv ∈ l.smallest_factors ∨ kv.1 = n := by
  intro kv hkv
  cases hmiss : l.smallest_factors.lookup n with
  | some f =>
    simp only [Lore.find, hmiss] at hkv
    exact Or.inl hkv
  | none =>
    simp only [Lore.find, hmiss] at hkv
    repeat' split at hkv
    all_goals
      exact (List.mem_cons.mp hkv).elim (fun heq => Or.inr (by rw [heq])) Or.inl

/-- Fold invariant of the warming loop: warming over indices below a bound
keeps every cached key, every known prime, and `last_prime` below that
bound, and preserves the invariant. -/
theorem warm_fold_bound : ∀ (l : List Nat) (b : Nat), (∀ i ∈ l, i < b) →
    ∀ s : Lore, LoreInv s →
    (∀ kv ∈ s.smallest_factors, kv.1 < b) →
    (∀ p ∈ s.primes, p < b) → s.last_prime < b →
    LoreInv (l.foldl warmStep s) ∧
    (∀ kv ∈ (l.foldl warmStep s).smallest_factors, kv.1 < b) ∧
    (∀ p ∈ (l.foldl warmStep s).primes, p < b) ∧
    (l.foldl warmStep s).last_prime < b := by
  intro l
  induction l with
  | nil => intro b _ s inv hk hp hl; exact ⟨inv, hk, hp, hl⟩
  | cons i tl ih =>
    intro b hib s inv hk hp hl
    rw [List.foldl_cons]
    have hib' : i < b := hib i (List.mem_cons_self i tl)
    have fc := find_char s i inv
    refine ih b (fun j hj => hib j (List.mem_cons_of_mem i hj)) (warmStep s i)
      fc.1 ?_ ?_ ?_
    · intro kv hkv
      rcases find_keys_sub s i kv hkv with h | h
      · exact hk kv h
      · omega
    · intro p hp2
      rcases fc.2.2.2.2.2.2.2.1 p hp2 with h | h
      · exact hp p h
      · omega
    · show (s.find i).2.last_prime < b
      rcases fc.2.2.2.2.2.2.2.2.2 with h | h <;> omega

/-- Bounds on the warmed state: `PrimeLore::new` touches only keys
`0..1024`, so every cached key, every known prime, and `last_prime` stay
below 1024 (and the invariant holds). -/
theorem warmedLore_bound :
    LoreInv warmedLore ∧
    (∀ kv ∈ warmedLore.smallest_factors, kv.1 < 1024) ∧
    (∀ p ∈ warmedLore.primes, p < 1024) ∧ warmedLore.last_prime < 1024 :=
  warm_fold_bound (List.range 1024) 1024 (fun i hi => List.mem_range.mp hi)
    initLore initLore_inv (by decide) (by decide) (by decide)

/-- Lookup of a key at least the bound of a bounded-key map misses. -/
theorem lookup_none_of_big {l : List (Nat × Nat)} {b n : Nat}
    (hb : ∀ kv ∈ l, kv.1 < b) (hn : b ≤ n) : l.lookup n = none := by
  cases h : l.lookup n with
  | none => rfl
  | some v =>
    have h2 : n < b := hb (n, v) (lookup_mem l n v h)
    omega

/-- `1031² = 1062961` has no divisor in `[2, 1031)`. -/
theorem no_small_divisor_1062961 (p : Nat) (h2 : 2 ≤ p) (hlt : p < 1031)
    (hdvd : p ∣ 1062961) : False := by
  have hp1031 : Nat.Prime 1031 := by norm_num
  have hsq : (1062961 : Nat) = 1031 ^ 2 := by norm_num
  rw [hsq] at hdvd
  obtain ⟨m, hm, rfl⟩ := (Nat.dvd_prime_pow hp1031).mp hdvd
  interval_cases m
  · exact absurd h2 (by norm_num)
  · exact absurd hlt (by norm_num)
  · exact absurd hlt (by norm_num)

/-- C4.  Refutation on a reachable state: from the warmed state (the
initial state of the process-wide `PRIME_LORE`), the call sequence
`get_factors_all(1033)` followed by `get_factors_all(1062961)` returns the
single factor 1062961 for 1062961 = 1031² — a composite — so "every
returned factor is prime" and "the first factor is the smallest prime
factor" both fail on this state.  The first call raises `last_prime` to
1033; the second call's odd-candidate scan therefore starts at
`1033 | 1 = 1033`, whose square exceeds 1031², and no known prime reaches
the sole prime divisor 1031, so 1031² is declared prime. -/
theorem get_factors_all_declares_composite_prime :
    (get_factors_all (get_factors_all warmedLore 1033).2.2 1062961).1 = [1062961] ∧
    ¬ Nat.Prime 1062961 ∧ Nat.Prime 1031 ∧ 1031 ∣ 1062961 := by
  obtain ⟨invW, keysW, primesW, lastW⟩ := warmedLore_bound
  have hp1033 : Nat.Prime 1033 := by norm_num
  have hp1031 : Nat.Prime 1031 := by norm_num
  -- the first call declares the genuine prime 1033 and raises `last_prime`
  have hm1 : warmedLore.smallest_factors.lookup 1033 = none :=
    lookup_none_of_big keysW (by omega)
  have hs1 : scanPrimes warmedLore.primes 1033 = none := by
    apply scanPrimes_none
    intro p hp
    rintro ⟨hpp, hmod⟩
    have h2 : 2 ≤ p := invW.primes_ge_two p hp
    have hlt : p < 1024 := primesW p hp
    rcases hp1033.eq_one_or_self_of_dvd p (Nat.dvd_of_mod_eq_zero hmod) with h | h <;>
      omega
  have ho1 : oddScan (1033 + 1) (warmedLore.last_prime ||| 1) 1033 = none := by
    apply oddScan_none
    intro q hq hqq hmod
    have h3 : 3 ≤ warmedLore.last_prime ||| 1 := by
      have h4 := lor_one_eq warmedLore.last_prime
      have h5 := invW.lastTwo
      omega
    rcases hp1033.eq_one_or_self_of_dvd q (Nat.dvd_of_mod_eq_zero hmod) with h | h
    · omega
    · subst h
      exact absurd hqq (by norm_num)
  have hpush1 : warmedLore.find 1033 =
      (1033, { smallest_factors := (1033, 1033) :: warmedLore.smallest_factors,
               primes := warmedLore.primes ++ [1033], last_prime := 1033 }) :=
    find_eq_prime_push hm1 hs1 ho1 (by omega)
  have hg1 : get_factors_all warmedLore 1033 =
      ([1033], 1,
       { smallest_factors := (1033, 1033) :: warmedLore.smallest_factors,
         primes := warmedLore.primes ++ [1033], last_prime := 1033 }) := by
    rw [get_factors_all, if_neg (by norm_num)]
    show gfaGo (1032 + 1) 1033 warmedLore [] 0 = _
    rw [gfaGo, hpush1]
    rfl
  -- the second call finds no divisor of 1031² and declares it prime
  have hm2 : List.lookup 1062961
      ((1033, 1033) :: warmedLore.smallest_factors) = none := by
    rw [lookup_cons_ne (by norm_num)]
    exact lookup_none_of_big keysW (by omega)
  have hs2 : scanPrimes (warmedLore.primes ++ [1033]) 1062961 = none := by
    apply scanPrimes_none
    intro p hp
    rintro ⟨hpp, hmod⟩
    rcases List.mem_append.mp hp with hmem | hmem
    · have h2 : 2 ≤ p := invW.primes_ge_two p hmem
      have hlt : p < 1024 := primesW p hmem
      exact no_small_divisor_1062961 p h2 (by omega) (Nat.dvd_of_mod_eq_zero hmod)
    · have hpe : p = 1033 := List.mem_singleton.mp hmem
      subst hpe
      exact absurd hpp (by norm_num)
  have ho2 : oddScan (1062961 + 1) ((1033 : Nat) ||| 1) 1062961 = none := by
    apply oddScan_none
    intro q hq hqq hmod
    have h33 : (1033 : Nat) ||| 1 = 1033 := by decide
    rw [h33] at hq
    have hmul : 1033 * 1033 ≤ q * q := Nat.mul_le_mul hq hq
    exact absurd (Nat.le_trans hmul hqq) (by norm_num)
  have hpush2 : Lore.find
      { smallest_factors := (1033, 1033) :: warmedLore.smallest_factors,
        primes := warmedLore.primes ++ [1033], last_prime := 1033 } 1062961 =
      (1062961,
       { smallest_factors := (1062961, 1062961) ::
           ((1033, 1033) :: warmedLore.smallest_factors),
         primes := (warmedLore.primes ++ [1033]) ++ [1062961],
         last_prime := 1062961 }) :=
    find_eq_prime_push hm2 hs2 ho2 (by decide)
  have hg2 : get_factors_all
      { smallest_factors := (1033, 1033) :: warmedLore.smallest_factors,
        primes := warmedLore.primes ++ [1033], last_prime := 1033 } 1062961 =
      ([1062961], 1,
       { smallest_factors := (1062961, 1062961) ::
           ((1033, 1033) :: warmedLore.smallest_factors),
         primes := (warmedLore.primes ++ [1033]) ++ [1062961],
         last_prime := 1062961 }) := by
    rw [get_factors_all, if_neg (by norm_num)]
    show gfaGo (1062960 + 1) 1062961 _ [] 0 = _
    rw [gfaGo, hpush2]
    rfl
  refine ⟨?_, ?_, hp1031, ⟨1031, by norm_num⟩⟩
  · rw [hg1]
    show (get_factors_all
      { smallest_factors := (1033, 1033) :: warmedLore.smallest_factors,
        primes := warmedLore.primes ++ [1033], last_prime := 1033 } 1062961).1 =
      [1062961]
    rw [hg2]
  · intro hpr
    rcases hpr.eq_one_or_self_of_dvd 1031 ⟨1031, by norm_num⟩ with h | h <;>
      norm_num at h

end FFT
